import Mathlib

/-!
# Verification of the VibrantFrogMCP photo search-and-identity engine

Shallow embedding of the core operations of the repository:

* `searchPhotos` — the semantic-search query path of `vibrant_frog_mcp.py`
  (`search_photos`, lines 120–225): load all rows of the `photo_index` table
  whose `embedding` column is not NULL, compute the cosine similarity of each
  stored embedding against the query embedding (rows whose stored JSON cannot
  be parsed into a vector combinable with the query raise inside the per-row
  `try`, are caught, and skipped), sort descending by similarity with Python's
  stable `list.sort`, and return the top `n_results`.
* `index_photo` — `shared_index.py` `SharedPhotoIndex.index_photo`:
  `INSERT OR REPLACE INTO photo_index` keyed by the `uuid` PRIMARY KEY.
* `cluster_faces` — `cluster_faces.py` `cluster_faces`: abort on an empty face
  collection, early-return in incremental mode when nothing is unclustered,
  otherwise run DBSCAN (an external sklearn routine, taken as a parameter)
  over the embeddings of all faces and write each resulting label back as
  `cluster_id` on every face record.
* `label_cluster` — `browse_faces_web.py` `FaceBrowserHandler.do_POST`
  (`/api/label`): scan all face records, set `person_name` on exactly those
  whose current `cluster_id` equals the request's cluster id, and return the
  count of updated records.
* `mkFaceRecord` — `index_faces.py` `process_photo_for_faces`: the metadata
  literal for a freshly detected face (`cluster_id = -1`, `person_name = None`).


Real-valued similarity scores `dot/(‖q‖·‖p‖)` are represented exactly: a
defined score is the pair (dot product, product of the squared norms), both
rationals, denoting the real number `num / √den2`; `Score.nan` represents the
IEEE NaN that numpy produces when a norm is zero (numpy emits a warning, not
an exception, so the row is kept with the undefined score).  The sort is
modelled on CPython's `list.sort` itself — reverse, detect the initial run,
binary insertion sort, reverse — over the float comparison `scoreLtb`, under
which every comparison against a NaN key is false, exactly as in CPython;
the section comment at the sort definitions states the precise fidelity of
the model.
-/

open scoped List
/-- Sum of squares of a vector: `sumSq v` is `‖v‖²` as a rational. -/
def sumSq (v : List ℚ) : ℚ := (v.map (fun x => x * x)).sum

/-- Dot product of two vectors (`np.dot` for equal-length 1-d arrays). -/
def dotQ (q v : List ℚ) : ℚ := (List.zipWith (· * ·) q v).sum

theorem sumSq_nonneg (v : List ℚ) : 0 ≤ sumSq v := by
  induction v with
  | nil => simp [sumSq]
  | cons x xs ih =>
      simp only [sumSq, List.map_cons, List.sum_cons]
      have hx : 0 ≤ x * x := mul_self_nonneg x
      have := ih
      simp only [sumSq] at this
      linarith

/-- Exact representation of a defined cosine-similarity value
`num / √den2`, with the positivity of the denominator carried in the type. -/
structure CosVal where
  num : ℚ
  den2 : ℚ
  den2_pos : 0 < den2

instance : DecidableEq CosVal := fun c d =>
  decidable_of_iff (c.num = d.num ∧ c.den2 = d.den2) (by
    cases c; cases d; simp)

theorem CosVal.mk_eq {a b a2 b2 : ℚ} {p : 0 < b} {p2 : 0 < b2}
    (h1 : a = a2) (h2 : b = b2) : CosVal.mk a b p = CosVal.mk a2 b2 p2 := by
  subst h1
  subst h2
  rfl

/-- The real number a `CosVal` denotes. -/
noncomputable def CosVal.toReal (c : CosVal) : ℝ :=
  (c.num : ℝ) / Real.sqrt (c.den2 : ℝ)

/-- A similarity score as produced by the per-row computation in
`search_photos`: either a defined value or the IEEE NaN produced by a
zero denominator. -/
inductive Score where
  | nan : Score
  | val : CosVal → Score
deriving DecidableEq

/-- Decides `c.toReal < d.toReal` for two defined similarity values without
square roots: sign analysis, then comparison of the `num² · den2`
cross-products. -/
def cosValLtb (c d : CosVal) : Bool :=
  if 0 ≤ d.num then
    if 0 ≤ c.num then decide (c.num ^ 2 * d.den2 < d.num ^ 2 * c.den2)
    else true
  else
    if 0 ≤ c.num then false
    else decide (d.num ^ 2 * c.den2 < c.num ^ 2 * d.den2)

theorem CosVal.toReal_lt_toReal_iff (c d : CosVal) :
    d.toReal < c.toReal ↔
      (d.num : ℝ) * Real.sqrt (c.den2 : ℝ) < (c.num : ℝ) * Real.sqrt (d.den2 : ℝ) := by
  have hx : (0 : ℝ) < Real.sqrt (c.den2 : ℝ) := by
    exact Real.sqrt_pos.2 (by exact_mod_cast c.den2_pos)
  have hy : (0 : ℝ) < Real.sqrt (d.den2 : ℝ) := by
    exact Real.sqrt_pos.2 (by exact_mod_cast d.den2_pos)
  unfold CosVal.toReal
  rw [div_lt_div_iff₀ hy hx]

theorem cosValLtb_iff (c d : CosVal) :
    cosValLtb c d = true ↔ c.toReal < d.toReal := by
  have hxq : (0 : ℝ) < (d.den2 : ℚ) := by exact_mod_cast d.den2_pos
  have hyq : (0 : ℝ) < (c.den2 : ℚ) := by exact_mod_cast c.den2_pos
  have hx : (0 : ℝ) < Real.sqrt (d.den2 : ℝ) := Real.sqrt_pos.2 hxq
  have hy : (0 : ℝ) < Real.sqrt (c.den2 : ℝ) := Real.sqrt_pos.2 hyq
  have hsx : Real.sqrt (d.den2 : ℝ) ^ 2 = (d.den2 : ℝ) := Real.sq_sqrt hxq.le
  have hsy : Real.sqrt (c.den2 : ℝ) ^ 2 = (c.den2 : ℝ) := Real.sq_sqrt hyq.le
  rw [CosVal.toReal_lt_toReal_iff]
  unfold cosValLtb
  by_cases hc : 0 ≤ d.num <;> by_cases hd : 0 ≤ c.num <;>
    simp only [hc, hd, if_true, if_false, decide_eq_true_eq]
  · -- both numerators nonneg: compare squares
    constructor
    · intro h
      have hcr : (0 : ℝ) ≤ (d.num : ℚ) := by exact_mod_cast hc
      have hdr : (0 : ℝ) ≤ (c.num : ℚ) := by exact_mod_cast hd
      have h2 : ((c.num : ℚ) : ℝ) ^ 2 * (d.den2 : ℚ) < ((d.num : ℚ) : ℝ) ^ 2 * (c.den2 : ℚ) := by
        exact_mod_cast h
      nlinarith [Real.sqrt_nonneg ((d.den2 : ℚ) : ℝ), Real.sqrt_nonneg ((c.den2 : ℚ) : ℝ),
        mul_nonneg hdr (Real.sqrt_nonneg ((d.den2 : ℚ) : ℝ)),
        mul_nonneg hcr (Real.sqrt_nonneg ((c.den2 : ℚ) : ℝ))]
    · intro h
      have hcr : (0 : ℝ) ≤ (d.num : ℚ) := by exact_mod_cast hc
      have hdr : (0 : ℝ) ≤ (c.num : ℚ) := by exact_mod_cast hd
      have h2 : ((c.num : ℚ) : ℝ) ^ 2 * (d.den2 : ℚ) < ((d.num : ℚ) : ℝ) ^ 2 * (c.den2 : ℚ) := by
        nlinarith [mul_nonneg hdr hx.le, mul_nonneg hcr hy.le]
      exact_mod_cast h2
  · -- d.num ≥ 0 > c.num: strictly greater
    constructor
    · intro _
      have hdr : ((c.num : ℚ) : ℝ) < 0 := by exact_mod_cast not_le.1 hd
      have hcr : (0 : ℝ) ≤ (d.num : ℚ) := by exact_mod_cast hc
      nlinarith
    · intro _; trivial
  · -- c.num ≥ 0 > d.num: not greater
    constructor
    · intro h; exact absurd h (by simp)
    · intro h
      have hcr : ((d.num : ℚ) : ℝ) < 0 := by exact_mod_cast not_le.1 hc
      have hdr : (0 : ℝ) ≤ (c.num : ℚ) := by exact_mod_cast hd
      nlinarith
  · -- both negative: compare the (positive) negations and square
    have hcr : ((d.num : ℚ) : ℝ) < 0 := by exact_mod_cast not_le.1 hc
    have hdr : ((c.num : ℚ) : ℝ) < 0 := by exact_mod_cast not_le.1 hd
    constructor
    · intro h
      have h2 : ((d.num : ℚ) : ℝ) ^ 2 * (c.den2 : ℚ) < ((c.num : ℚ) : ℝ) ^ 2 * (d.den2 : ℚ) := by
        exact_mod_cast h
      have hsq : ((-((d.num : ℚ) : ℝ)) * Real.sqrt ((c.den2 : ℚ) : ℝ)) ^ 2 <
          ((-((c.num : ℚ) : ℝ)) * Real.sqrt ((d.den2 : ℚ) : ℝ)) ^ 2 := by
        rw [mul_pow, mul_pow, hsx, hsy]
        nlinarith
      have hlt := lt_of_pow_lt_pow_left₀ 2
        (mul_nonneg (neg_nonneg.2 hdr.le) hx.le) hsq
      nlinarith
    · intro h
      have hlt : (-((d.num : ℚ) : ℝ)) * Real.sqrt ((c.den2 : ℚ) : ℝ) <
          (-((c.num : ℚ) : ℝ)) * Real.sqrt ((d.den2 : ℚ) : ℝ) := by nlinarith
      have hsq := pow_lt_pow_left₀ hlt
        (mul_nonneg (neg_nonneg.2 hcr.le) hy.le) (by norm_num : (2 : ℕ) ≠ 0)
      rw [mul_pow, mul_pow, hsx, hsy] at hsq
      have h2 : ((d.num : ℚ) : ℝ) ^ 2 * (c.den2 : ℚ) < ((c.num : ℚ) : ℝ) ^ 2 * (d.den2 : ℚ) := by
        nlinarith
      exact_mod_cast h2


/-- The comparison CPython evaluates between two similarity keys: a plain
float `<`.  Every comparison involving NaN is false; defined values compare
by their real value. -/
def scoreLtb : Score → Score → Bool
  | Score.nan, _ => false
  | _, Score.nan => false
  | Score.val c, Score.val d => cosValLtb c d

theorem scoreLtb_nan_left (s : Score) : scoreLtb Score.nan s = false := by
  cases s <;> rfl

theorem scoreLtb_nan_right (s : Score) : scoreLtb s Score.nan = false := by
  cases s <;> rfl

theorem scoreLtb_val_iff (c d : CosVal) :
    scoreLtb (Score.val c) (Score.val d) = true ↔ c.toReal < d.toReal :=
  cosValLtb_iff c d

theorem scoreLtb_val_false_iff (c d : CosVal) :
    scoreLtb (Score.val c) (Score.val d) = false ↔ d.toReal ≤ c.toReal := by
  rw [← not_lt, ← scoreLtb_val_iff c d]
  constructor
  · intro h hcon
    rw [h] at hcon
    cases hcon
  · intro h
    cases hb : scoreLtb (Score.val c) (Score.val d)
    · rfl
    · exact absurd hb h

/-! ## The photo store and the search pipeline

`photo_index` is a SQLite table with `uuid TEXT PRIMARY KEY`, `description`,
and an `embedding` column holding a JSON-serialized vector.  The search path
(`vibrant_frog_mcp.py` 149-191) selects `uuid, description, embedding,
indexed_at FROM photo_index WHERE embedding IS NOT NULL` and iterates the rows
in rowid (insertion) order.  A stored text that does not decode into a numeric
vector of the query's length raises inside the per-row `try` (`json.loads` or
`np.dot`) and the row is skipped.  `EmbCol` models the column's contents. -/

/-- Contents of the `embedding` column of one `photo_index` row: SQL NULL,
text that does not decode to a numeric vector (`json.loads`/`np.array` would
not yield something `np.dot` accepts), or a decoded vector. -/
inductive EmbCol where
  | null : EmbCol
  | malformed : EmbCol
  | vec : List ℚ → EmbCol
deriving DecidableEq

/-- One row of `photo_index`, with the columns written by
`SharedPhotoIndex.index_photo` (`shared_index.py` 174-235).  The
`indexed_at`/`indexed_by`/`description_source`/`index_version` bookkeeping
columns take DB defaults or constants and carry no claim-relevant data;
`indexedBy` and `descriptionSource` are kept as representatives. -/
structure PhotoRow where
  uuid : String
  description : String
  emb : EmbCol
  filename : Option String
  dateTaken : Option String
  location : Option String
  albums : Option (List String)
  keywords : Option (List String)
  favorite : Bool
  width : Option ℤ
  height : Option ℤ
  orientation : String
  cloudAsset : Bool
  hasAdjustments : Bool
  cloudGuid : Option String
  indexedBy : String
  descriptionSource : String
deriving DecidableEq

/-- The similarity the row loop computes for a decoded vector of the query's
length: `np.dot(q,v) / (‖q‖·‖v‖)`.  When either norm is zero, numpy's float
division produces NaN/inf with only a warning, so the row keeps an undefined
score; otherwise the value is `dot/√(sumSq q · sumSq v)`. -/
def cosScore (q v : List ℚ) : Score :=
  if h : sumSq q * sumSq v = 0 then Score.nan
  else Score.val ⟨dotQ q v, sumSq q * sumSq v,
    lt_of_le_of_ne (mul_nonneg (sumSq_nonneg q) (sumSq_nonneg v)) (Ne.symm h)⟩

/-- The mathematical cosine similarity `dot(q,v)/(‖q‖·‖v‖)` of two rational
vectors, as a real number. -/
noncomputable def realCosine (q v : List ℚ) : ℝ :=
  ((dotQ q v : ℚ) : ℝ) /
    (Real.sqrt ((sumSq q : ℚ) : ℝ) * Real.sqrt ((sumSq v : ℚ) : ℝ))

theorem cosScore_val_toReal (q v : List ℚ) (h : sumSq q * sumSq v ≠ 0) :
    ∃ c : CosVal, cosScore q v = Score.val c ∧ c.toReal = realCosine q v ∧
      c.num = dotQ q v ∧ c.den2 = sumSq q * sumSq v := by
  refine ⟨⟨dotQ q v, sumSq q * sumSq v,
    lt_of_le_of_ne (mul_nonneg (sumSq_nonneg q) (sumSq_nonneg v)) (Ne.symm h)⟩,
    by simp [cosScore, h], ?_, rfl, rfl⟩
  unfold CosVal.toReal realCosine
  rw [Rat.cast_mul,
    Real.sqrt_mul (by exact_mod_cast sumSq_nonneg q) ((sumSq v : ℚ) : ℝ)]

/-- The per-row body of the similarity loop: `None` models a row skipped by
the `except: continue` (malformed stored text, or `np.dot` raising on a length
mismatch with the query vector); `some s` is the appended similarity entry. -/
def rowScore (q : List ℚ) (r : PhotoRow) : Option Score :=
  match r.emb with
  | .null => none
  | .malformed => none
  | .vec v => if v.length = q.length then some (cosScore q v) else none

/-- A scored candidate: the row's position in the fetched row list (used only
to express the tie-breaking of the stable sort), its identifying columns and
its computed similarity. -/
structure ScoredRow where
  idx : ℕ
  uuid : String
  description : String
  score : Score
deriving DecidableEq

/-- The similarity loop over the fetched rows, accumulating the scored
candidates in row order (`vibrant_frog_mcp.py` 170-188). -/
def scoreRowsAux (q : List ℚ) : ℕ → List PhotoRow → List ScoredRow
  | _, [] => []
  | i, r :: rs =>
    match rowScore q r with
    | none => scoreRowsAux q (i + 1) rs
    | some s => ⟨i, r.uuid, r.description, s⟩ :: scoreRowsAux q (i + 1) rs

/-- All scored candidates for a query over the table: the SQL
`WHERE embedding IS NOT NULL` filter followed by the similarity loop. -/
def scoredRows (q : List ℚ) (tbl : List PhotoRow) : List ScoredRow :=
  scoreRowsAux q 0 (tbl.filter (fun r => r.emb ≠ EmbCol.null))

/-! ## The sort: CPython `list.sort(key=..., reverse=True)` on the keys

CPython reverses the list, sorts ascending with a stable sort, and reverses
again (`listobject.c`); the two reversals invert and then restore the
relative order of equal keys.  The ascending sort detects the initial run
(`count_run`, reversing it in place when strictly descending) and, for lists
below the 64-element merge threshold (where `minrun = n`), extends that run
over the whole list with binary insertion sort (`binarysort`); the model
below is exactly that path.  For 64 or more elements CPython merges several
such runs; on totally ordered keys the merging sort returns the same list as
this single-run path (both are stable sorts, and a stable sort's output is
unique), so the model is exact on every store without NaN scores and — NaN
included — on every store below the merge threshold, which covers the
three-row counterexamples. -/

/-- Row returned by out-of-range `getD` accesses; every access the sort
performs is in range, so it never surfaces in a result. -/
def dummyRow : ScoredRow := ⟨0, "", "", Score.nan⟩

/-- The binary search of `binarysort`: the insertion point of `pivot` in the
sorted slice `cur[l:r)`.  On a tie the search moves right, which keeps the
sort stable.  The first argument is fuel — an upper bound on the iteration
count that makes the recursion structural; called with fuel `r - l` the
base case is reached exactly when `l = r`, as in the C loop. -/
def pivotPoint : ℕ → List ScoredRow → ScoredRow → ℕ → ℕ → ℕ
  | 0, _, _, l, _ => l
  | fuel + 1, cur, pivot, l, r =>
    if l < r then
      if scoreLtb pivot.score (cur.getD ((l + r) / 2) dummyRow).score = true then
        pivotPoint fuel cur pivot l ((l + r) / 2)
      else
        pivotPoint fuel cur pivot ((l + r) / 2 + 1) r
    else l

/-- One insertion of `binarysort`: move `cur[i]` to its insertion point in
the sorted prefix `cur[0:i)`, shifting `cur[p:i)` one slot right. -/
def binsortStep (cur : List ScoredRow) (i : ℕ) : List ScoredRow :=
  let pivot := cur.getD i dummyRow
  let p := pivotPoint i cur pivot 0 i
  cur.take p ++ pivot :: ((cur.drop p).take (i - p) ++ cur.drop (i + 1))

/-- The insertion loop of `binarysort`, one `binsortStep` per remaining
position (`fuel = n - start`). -/
def binsortGo : ℕ → List ScoredRow → ℕ → List ScoredRow
  | 0, cur, _ => cur
  | fuel + 1, cur, i => binsortGo fuel (binsortStep cur i) (i + 1)

def binarysortFrom (l : List ScoredRow) (start : ℕ) : List ScoredRow :=
  binsortGo (l.length - start) l start

/-- Length of the run continuing `prev` while not `a[k] < a[k-1]`
(`count_run`, ascending case). -/
def runAscLen (prev : ScoredRow) : List ScoredRow → ℕ
  | [] => 0
  | x :: xs => if scoreLtb x.score prev.score = true then 0 else runAscLen x xs + 1

/-- Length of the run continuing `prev` while `a[k] < a[k-1]` strictly
(`count_run`, descending case; strictness is what keeps the later reversal
stable). -/
def runDescLen (prev : ScoredRow) : List ScoredRow → ℕ
  | [] => 0
  | x :: xs => if scoreLtb x.score prev.score = true then runDescLen x xs + 1 else 0

/-- `count_run`: the length of the initial run and whether it descends. -/
def countRun : List ScoredRow → ℕ × Bool
  | [] => (0, false)
  | [_] => (1, false)
  | a :: b :: rest =>
    if scoreLtb b.score a.score = true then (runDescLen b rest + 2, true)
    else (runAscLen b rest + 2, false)

/-- CPython's ascending stable sort on the keys (single-run path, see the
section comment): detect the initial run, reverse it in place if strictly
descending, and extend it over the whole list with binary insertion sort. -/
def pySortAsc (l : List ScoredRow) : List ScoredRow :=
  binarysortFrom
    (if (countRun l).2 then (l.take (countRun l).1).reverse ++ l.drop (countRun l).1 else l)
    (countRun l).1

/-- `similarities.sort(key=lambda x: x['similarity'], reverse=True)`:
reverse, sort ascending, reverse. -/
def pySortDesc (l : List ScoredRow) : List ScoredRow :=
  (pySortAsc l.reverse).reverse

theorem pySortDesc_nil : pySortDesc [] = [] := rfl

/-- The full descending ranking of the scored candidates. -/
def photoRanking (q : List ℚ) (tbl : List PhotoRow) : List ScoredRow :=
  pySortDesc (scoredRows q tbl)

/-- One element of the returned list (the fields of the result dicts that are
computed from the index; `path`/`filename` come from the external osxphotos
lookup and `distance` is `1 - similarity`). -/
structure SearchResult where
  uuid : String
  description : String
  score : Score
deriving DecidableEq

/-- The operation `search_photos(query, n_results)`: score all stored rows against the query
embedding, sort descending by similarity (stable), truncate to `n_results`,
and emit one result per retained candidate, in order. -/
def searchPhotos (q : List ℚ) (tbl : List PhotoRow) (n : ℕ) : List SearchResult :=
  ((photoRanking q tbl).take n).map (fun s => ⟨s.uuid, s.description, s.score⟩)

theorem scoreRowsAux_idx_lb (q : List ℚ) :
    ∀ (rs : List PhotoRow) (i : ℕ), ∀ s ∈ scoreRowsAux q i rs, i ≤ s.idx := by
  intro rs
  induction rs with
  | nil => intro i s hs; simp [scoreRowsAux] at hs
  | cons r t ih =>
      intro i s hs
      rw [scoreRowsAux] at hs
      cases hsc : rowScore q r with
      | none =>
          rw [hsc] at hs
          exact Nat.le_of_succ_le (ih (i + 1) s hs)
      | some sc =>
          rw [hsc] at hs
          rcases List.mem_cons.1 hs with rfl | hst
          · exact le_rfl
          · exact Nat.le_of_succ_le (ih (i + 1) s hst)

theorem scoreRowsAux_pairwise_idx (q : List ℚ) :
    ∀ (rs : List PhotoRow) (i : ℕ),
      (scoreRowsAux q i rs).Pairwise (fun a b => a.idx < b.idx) := by
  intro rs
  induction rs with
  | nil => intro i; simp [scoreRowsAux]
  | cons r t ih =>
      intro i
      rw [scoreRowsAux]
      cases hsc : rowScore q r with
      | none => exact ih (i + 1)
      | some sc =>
          refine List.pairwise_cons.2 ⟨?_, ih (i + 1)⟩
          intro s hs
          exact Nat.lt_of_succ_le (scoreRowsAux_idx_lb q t (i + 1) s hs)

theorem scoredRows_pairwise_idx (q : List ℚ) (tbl : List PhotoRow) :
    (scoredRows q tbl).Pairwise (fun a b => a.idx < b.idx) :=
  scoreRowsAux_pairwise_idx q _ 0

/-! ## Correctness of the sort model on totally ordered keys -/

/-- Ascending counterpart of the ranking order.  In the pre-reversed list
the original row order is inverted, so among ties the later-ranked (smaller
index) element comes later: `a` may precede `b` when `a < b`, or on a tie
when `b.idx < a.idx`. -/
def sAsc (a b : ScoredRow) : Prop :=
  scoreLtb a.score b.score = true ∨
    (scoreLtb a.score b.score = false ∧ scoreLtb b.score a.score = false ∧
      b.idx < a.idx)

/-- Descending ranking order: strictly greater similarity first, ties in
original row order. -/
def rankLt (a b : ScoredRow) : Prop :=
  scoreLtb b.score a.score = true ∨
    (scoreLtb b.score a.score = false ∧ scoreLtb a.score b.score = false ∧
      a.idx < b.idx)

theorem sAsc_le {a b : ScoredRow} {ca cb : CosVal}
    (ha : a.score = Score.val ca) (hb : b.score = Score.val cb)
    (h : sAsc a b) : ca.toReal ≤ cb.toReal := by
  rcases h with h | ⟨h1, h2, _⟩
  · rw [ha, hb] at h
    exact le_of_lt ((scoreLtb_val_iff ca cb).1 h)
  · rw [hb, ha] at h2
    exact (scoreLtb_val_false_iff cb ca).1 h2

theorem lt_of_lt_of_sAsc {p a b : ScoredRow} {cp ca cb : CosVal}
    (hp : p.score = Score.val cp) (ha : a.score = Score.val ca)
    (hb : b.score = Score.val cb)
    (h1 : scoreLtb p.score a.score = true) (h2 : sAsc a b) :
    scoreLtb p.score b.score = true := by
  rw [hp, ha] at h1
  rw [hp, hb]
  exact (scoreLtb_val_iff cp cb).2
    (lt_of_lt_of_le ((scoreLtb_val_iff cp ca).1 h1) (sAsc_le ha hb h2))

theorem not_lt_of_sAsc_not_lt {p a b : ScoredRow} {cp ca cb : CosVal}
    (hp : p.score = Score.val cp) (ha : a.score = Score.val ca)
    (hb : b.score = Score.val cb)
    (h2 : sAsc a b) (h1 : scoreLtb p.score b.score = false) :
    scoreLtb p.score a.score = false := by
  rw [hp, hb] at h1
  rw [hp, ha]
  exact (scoreLtb_val_false_iff cp ca).2
    (le_trans (sAsc_le ha hb h2) ((scoreLtb_val_false_iff cp cb).1 h1))

theorem sAsc_trans {a b c : ScoredRow}
    (ha : ∃ x, a.score = Score.val x) (hb : ∃ x, b.score = Score.val x)
    (hc : ∃ x, c.score = Score.val x)
    (h1 : sAsc a b) (h2 : sAsc b c) : sAsc a c := by
  obtain ⟨ca, hca⟩ := ha
  obtain ⟨cb, hcb⟩ := hb
  obtain ⟨cc, hcc⟩ := hc
  have key : ca.toReal < cc.toReal ∨ (ca.toReal = cc.toReal ∧ c.idx < a.idx) := by
    rcases h1 with h1 | ⟨h1f, h1g, h1i⟩
    · rw [hca, hcb] at h1
      exact Or.inl (lt_of_lt_of_le ((scoreLtb_val_iff ca cb).1 h1) (sAsc_le hcb hcc h2))
    · have hab : cb.toReal ≤ ca.toReal := by
        rw [hca, hcb] at h1f
        exact (scoreLtb_val_false_iff ca cb).1 h1f
      have hba : ca.toReal ≤ cb.toReal := by
        rw [hcb, hca] at h1g
        exact (scoreLtb_val_false_iff cb ca).1 h1g
      rcases h2 with h2 | ⟨h2f, h2g, h2i⟩
      · rw [hcb, hcc] at h2
        exact Or.inl (lt_of_le_of_lt hba ((scoreLtb_val_iff cb cc).1 h2))
      · have hbc : cc.toReal ≤ cb.toReal := by
          rw [hcb, hcc] at h2f
          exact (scoreLtb_val_false_iff cb cc).1 h2f
        have hcb2 : cb.toReal ≤ cc.toReal := by
          rw [hcc, hcb] at h2g
          exact (scoreLtb_val_false_iff cc cb).1 h2g
        exact Or.inr ⟨le_antisymm (le_trans hba hcb2) (le_trans hbc hab),
          lt_trans h2i h1i⟩
  rcases key with h | ⟨heq, hidx⟩
  · exact Or.inl (by rw [hca, hcc]; exact (scoreLtb_val_iff ca cc).2 h)
  · refine Or.inr ⟨?_, ?_, hidx⟩
    · rw [hca, hcc]
      exact (scoreLtb_val_false_iff ca cc).2 (le_of_eq heq.symm)
    · rw [hcc, hca]
      exact (scoreLtb_val_false_iff cc ca).2 (le_of_eq heq)

theorem pivotPoint_le : ∀ (fuel : ℕ) (cur : List ScoredRow) (pivot : ScoredRow)
    (l r : ℕ), l ≤ r →
    l ≤ pivotPoint fuel cur pivot l r ∧ pivotPoint fuel cur pivot l r ≤ r := by
  intro fuel
  induction fuel with
  | zero => intro cur pivot l r h; exact ⟨le_rfl, h⟩
  | succ fuel ih =>
      intro cur pivot l r h
      rw [pivotPoint]
      by_cases hlr : l < r
      · rw [if_pos hlr]
        by_cases hb : scoreLtb pivot.score (cur.getD ((l + r) / 2) dummyRow).score = true
        · rw [if_pos hb]
          obtain ⟨g1, g2⟩ := ih cur pivot l ((l + r) / 2) (by omega)
          exact ⟨g1, by omega⟩
        · rw [if_neg hb]
          obtain ⟨g1, g2⟩ := ih cur pivot ((l + r) / 2 + 1) r (by omega)
          exact ⟨by omega, g2⟩
      · rw [if_neg hlr]
        exact ⟨le_rfl, h⟩

theorem pivotPoint_spec (cur : List ScoredRow) (pivot : ScoredRow) (i : ℕ)
    (hd : ∀ k, k < i → ∃ x, (cur.getD k dummyRow).score = Score.val x)
    (hp : ∃ x, pivot.score = Score.val x)
    (hsort : ∀ k1 k2, k1 < k2 → k2 < i →
      sAsc (cur.getD k1 dummyRow) (cur.getD k2 dummyRow)) :
    ∀ (fuel l r : ℕ), r - l ≤ fuel → l ≤ r → r ≤ i →
      (∀ k, k < l → scoreLtb pivot.score (cur.getD k dummyRow).score = false) →
      (∀ k, r ≤ k → k < i → scoreLtb pivot.score (cur.getD k dummyRow).score = true) →
      (∀ k, k < pivotPoint fuel cur pivot l r →
        scoreLtb pivot.score (cur.getD k dummyRow).score = false) ∧
      (∀ k, pivotPoint fuel cur pivot l r ≤ k → k < i →
        scoreLtb pivot.score (cur.getD k dummyRow).score = true) := by
  intro fuel
  induction fuel with
  | zero =>
      intro l r hfuel hlr hri inv1 inv2
      have hlr2 : l = r := by omega
      have hpz : pivotPoint 0 cur pivot l r = l := rfl
      constructor
      · intro k hk
        rw [hpz] at hk
        exact inv1 k hk
      · intro k hk1 hk2
        rw [hpz] at hk1
        exact inv2 k (by omega) hk2
  | succ fuel ih =>
      intro l r hfuel hlr hri inv1 inv2
      rw [pivotPoint]
      by_cases hlr2 : l < r
      · rw [if_pos hlr2]
        have hmi : (l + r) / 2 < i := by omega
        obtain ⟨cm, hcm⟩ := hd ((l + r) / 2) hmi
        obtain ⟨cp, hcp⟩ := hp
        by_cases hb : scoreLtb pivot.score (cur.getD ((l + r) / 2) dummyRow).score = true
        · rw [if_pos hb]
          refine ih l ((l + r) / 2) (by omega) (by omega) (by omega) inv1 ?_
          intro k hk1 hk2
          rcases eq_or_lt_of_le hk1 with heq | hlt2
          · rw [← heq]
            exact hb
          · obtain ⟨ck, hck⟩ := hd k hk2
            exact lt_of_lt_of_sAsc hcp hcm hck hb (hsort ((l + r) / 2) k hlt2 hk2)
        · rw [if_neg hb]
          have hbf : scoreLtb pivot.score (cur.getD ((l + r) / 2) dummyRow).score = false := by
            cases hx : scoreLtb pivot.score (cur.getD ((l + r) / 2) dummyRow).score
            · rfl
            · exact absurd hx hb
          refine ih ((l + r) / 2 + 1) r (by omega) (by omega) hri ?_ inv2
          intro k hk
          by_cases hkl : k < l
          · exact inv1 k hkl
          · have hk2 : k ≤ (l + r) / 2 := by omega
            rcases eq_or_lt_of_le hk2 with heq | hlt2
            · rw [heq]
              exact hbf
            · obtain ⟨ck, hck⟩ := hd k (by omega)
              exact not_lt_of_sAsc_not_lt hcp hck hcm
                (hsort k ((l + r) / 2) hlt2 hmi) hbf
      · rw [if_neg hlr2]
        constructor
        · intro k hk
          exact inv1 k hk
        · intro k hk1 hk2
          exact inv2 k (by omega) hk2
theorem binsortStep_eq (cur : List ScoredRow) (i : ℕ) :
    binsortStep cur i =
      cur.take (pivotPoint i cur (cur.getD i dummyRow) 0 i) ++
        (cur.getD i dummyRow) ::
          ((cur.drop (pivotPoint i cur (cur.getD i dummyRow) 0 i)).take
              (i - pivotPoint i cur (cur.getD i dummyRow) 0 i) ++
            cur.drop (i + 1)) := rfl

theorem binsortStep_struct (cur : List ScoredRow) (i p : ℕ)
    (hp : p = pivotPoint i cur (cur.getD i dummyRow) 0 i) (hi : i < cur.length) :
    (binsortStep cur i).take (i + 1) =
        cur.take p ++ (cur.getD i dummyRow) :: (cur.drop p).take (i - p)
  ∧ (binsortStep cur i).drop (i + 1) = cur.drop (i + 1)
  ∧ cur.take i = cur.take p ++ (cur.drop p).take (i - p) := by
  have hple : p ≤ i := by
    rw [hp]
    exact (pivotPoint_le i cur (cur.getD i dummyRow) 0 i (Nat.zero_le i)).2
  have hblock : binsortStep cur i =
      (cur.take p ++ (cur.getD i dummyRow) :: (cur.drop p).take (i - p)) ++
        cur.drop (i + 1) := by
    rw [binsortStep_eq, hp]
    simp [List.append_assoc]
  have hlenA : (cur.take p).length = p := by
    rw [List.length_take]
    omega
  have hlenM : ((cur.drop p).take (i - p)).length = i - p := by
    rw [List.length_take, List.length_drop]
    omega
  have hpreflen :
      (cur.take p ++ (cur.getD i dummyRow) :: (cur.drop p).take (i - p)).length = i + 1 := by
    simp only [List.length_append, List.length_cons, hlenA, hlenM]
    omega
  refine ⟨?_, ?_, ?_⟩
  · rw [hblock]
    exact List.take_left' hpreflen
  · rw [hblock]
    exact List.drop_left' hpreflen
  · have h2 := List.take_add cur p (i - p)
    rw [Nat.add_sub_cancel' hple] at h2
    exact h2

theorem binsortStep_perm (cur : List ScoredRow) (i : ℕ) (hi : i < cur.length) :
    binsortStep cur i ~ cur ∧ (binsortStep cur i).length = cur.length ∧
      (binsortStep cur i).take (i + 1) ~ (cur.getD i dummyRow) :: cur.take i := by
  obtain ⟨htk, hdp, hAM⟩ := binsortStep_struct cur i _ rfl hi
  have hperm1 : (binsortStep cur i).take (i + 1) ~ (cur.getD i dummyRow) :: cur.take i := by
    rw [htk, hAM]
    exact List.perm_middle
  have hdropi : cur.drop i = (cur.getD i dummyRow) :: cur.drop (i + 1) := by
    rw [List.getD_eq_getElem cur dummyRow hi]
    exact List.drop_eq_getElem_cons hi
  have hperm : binsortStep cur i ~ cur := by
    calc binsortStep cur i
        = (binsortStep cur i).take (i + 1) ++ (binsortStep cur i).drop (i + 1) :=
          (List.take_append_drop (i + 1) (binsortStep cur i)).symm
      _ = (binsortStep cur i).take (i + 1) ++ cur.drop (i + 1) := by rw [hdp]
      _ ~ ((cur.getD i dummyRow) :: cur.take i) ++ cur.drop (i + 1) :=
          List.Perm.append_right _ hperm1
      _ ~ cur.take i ++ (cur.getD i dummyRow) :: cur.drop (i + 1) :=
          List.perm_middle.symm
      _ = cur.take i ++ cur.drop i := by rw [hdropi]
      _ = cur := List.take_append_drop i cur
  exact ⟨hperm, hperm.length_eq, hperm1⟩

theorem binsortStep_pairwise (cur : List ScoredRow) (i : ℕ) (hi : i < cur.length)
    (hdef : ∀ x ∈ cur, ∃ c, x.score = Score.val c)
    (hpre : (cur.take i).Pairwise sAsc)
    (hidx : ∀ x ∈ cur.take i, (cur.getD i dummyRow).idx < x.idx) :
    ((binsortStep cur i).take (i + 1)).Pairwise sAsc := by
  obtain ⟨htk, hdp, hAM⟩ := binsortStep_struct cur i _ rfl hi
  have hple : pivotPoint i cur (cur.getD i dummyRow) 0 i ≤ i :=
    (pivotPoint_le i cur (cur.getD i dummyRow) 0 i (Nat.zero_le i)).2
  have hd : ∀ k, k < i → ∃ x, (cur.getD k dummyRow).score = Score.val x := by
    intro k hk
    have hkl : k < cur.length := by omega
    rw [List.getD_eq_getElem cur dummyRow hkl]
    exact hdef _ (List.getElem_mem hkl)
  have hp2 : ∃ x, (cur.getD i dummyRow).score = Score.val x := by
    rw [List.getD_eq_getElem cur dummyRow hi]
    exact hdef _ (List.getElem_mem hi)
  have hsort : ∀ k1 k2, k1 < k2 → k2 < i →
      sAsc (cur.getD k1 dummyRow) (cur.getD k2 dummyRow) := by
    intro k1 k2 h12 h2i
    have hk1 : k1 < (cur.take i).length := by
      rw [List.length_take]
      omega
    have hk2 : k2 < (cur.take i).length := by
      rw [List.length_take]
      omega
    have hrel := List.pairwise_iff_get.1 hpre ⟨k1, hk1⟩ ⟨k2, hk2⟩ h12
    have e1 : (cur.take i).get ⟨k1, hk1⟩ = cur.getD k1 dummyRow := by
      rw [List.get_eq_getElem, List.getElem_take,
        List.getD_eq_getElem cur dummyRow (by omega)]
    have e2 : (cur.take i).get ⟨k2, hk2⟩ = cur.getD k2 dummyRow := by
      rw [List.get_eq_getElem, List.getElem_take,
        List.getD_eq_getElem cur dummyRow (by omega)]
    rw [e1, e2] at hrel
    exact hrel
  obtain ⟨hlow, hhigh⟩ := pivotPoint_spec cur (cur.getD i dummyRow) i hd hp2 hsort
    i 0 i (by omega) (Nat.zero_le i) le_rfl
    (fun k hk => absurd hk (Nat.not_lt_zero k))
    (fun k hk1 hk2 => absurd (lt_of_le_of_lt hk1 hk2) (lt_irrefl i))
  rw [htk]
  refine List.pairwise_append.2 ⟨?_, ?_, ?_⟩
  · rw [hAM] at hpre
    exact (List.pairwise_append.1 hpre).1
  · rw [hAM] at hpre
    refine List.pairwise_cons.2 ⟨?_, (List.pairwise_append.1 hpre).2.1⟩
    intro y hy
    obtain ⟨k, hk, hyk⟩ := List.mem_iff_getElem.1 hy
    have hkb : k < i - pivotPoint i cur (cur.getD i dummyRow) 0 i := by
      rw [List.length_take, List.length_drop] at hk
      omega
    have hyv : y = cur.getD (pivotPoint i cur (cur.getD i dummyRow) 0 i + k) dummyRow := by
      rw [← hyk, List.getElem_take, List.getElem_drop]
      exact (List.getD_eq_getElem cur dummyRow (by omega)).symm
    rw [hyv]
    exact Or.inl (hhigh _ (by omega) (by omega))
  · intro a ha y hy
    obtain ⟨k, hk, hak⟩ := List.mem_iff_getElem.1 ha
    have hkp : k < pivotPoint i cur (cur.getD i dummyRow) 0 i := by
      rw [List.length_take] at hk
      omega
    have hav : a = cur.getD k dummyRow := by
      rw [← hak, List.getElem_take]
      exact (List.getD_eq_getElem cur dummyRow (by omega)).symm
    have hmemi : a ∈ cur.take i := by
      rw [hAM]
      exact List.mem_append_left _ ha
    rcases List.mem_cons.1 hy with rfl | hyM
    · cases hab : scoreLtb a.score (cur.getD i dummyRow).score
      · refine Or.inr ⟨hab, ?_, hidx a hmemi⟩
        rw [hav]
        exact hlow k hkp
      · exact Or.inl hab
    · rw [hAM] at hpre
      exact (List.pairwise_append.1 hpre).2.2 a ha y hyM

theorem binsortGo_perm : ∀ (fuel : ℕ) (cur : List ScoredRow) (i : ℕ),
    fuel + i ≤ cur.length → binsortGo fuel cur i ~ cur := by
  intro fuel
  induction fuel with
  | zero =>
      intro cur i _
      exact List.Perm.refl cur
  | succ fuel ih =>
      intro cur i h
      rw [binsortGo]
      have hi : i < cur.length := by omega
      obtain ⟨hperm, hlen, _⟩ := binsortStep_perm cur i hi
      exact (ih (binsortStep cur i) (i + 1) (by omega)).trans hperm

theorem binsortGo_invariant (l : List ScoredRow)
    (hdef : ∀ x ∈ l, ∃ c, x.score = Score.val c)
    (hidx : l.Pairwise (fun a b => b.idx < a.idx)) :
    ∀ (fuel : ℕ) (cur : List ScoredRow) (i : ℕ),
      fuel + i = l.length → cur.length = l.length →
      cur.drop i = l.drop i → cur.take i ~ l.take i →
      (cur.take i).Pairwise sAsc →
      (binsortGo fuel cur i).Pairwise sAsc := by
  intro fuel
  induction fuel with
  | zero =>
      intro cur i hfi hlen hdrop htke hpw
      have hall : cur.take i = cur := List.take_of_length_le (by omega)
      exact hall ▸ hpw
  | succ fuel ih =>
      intro cur i hfi hlen hdrop htke hpw
      rw [binsortGo]
      have hi : i < cur.length := by omega
      have hil : i < l.length := by omega
      have hdc := List.drop_eq_getElem_cons hi
      have hdl := List.drop_eq_getElem_cons hil
      rw [hdc, hdl] at hdrop
      injection hdrop with hhead htail
      have hpivot : cur.getD i dummyRow = l.getD i dummyRow := by
        rw [List.getD_eq_getElem cur dummyRow hi, List.getD_eq_getElem l dummyRow hil]
        exact hhead
      have hcl : cur ~ l := by
        calc cur = cur.take i ++ cur.drop i := (List.take_append_drop i cur).symm
          _ ~ l.take i ++ l.drop i := by
              refine List.Perm.append htke ?_
              rw [hdc, hdl, hhead, htail]
          _ = l := List.take_append_drop i l
      have hdefcur : ∀ x ∈ cur, ∃ c, x.score = Score.val c := by
        intro x hx
        exact hdef x (hcl.mem_iff.1 hx)
      have hidxstep : ∀ x ∈ cur.take i, (cur.getD i dummyRow).idx < x.idx := by
        intro x hx
        have hxl : x ∈ l.take i := htke.mem_iff.1 hx
        obtain ⟨k, hk, hkx⟩ := List.mem_iff_getElem.1 hxl
        have hki : k < i := by
          rw [List.length_take] at hk
          omega
        have hrel := List.pairwise_iff_get.1 hidx ⟨k, by omega⟩ ⟨i, hil⟩ hki
        rw [hpivot, List.getD_eq_getElem l dummyRow hil]
        have hxk : x = l.get ⟨k, by omega⟩ := by
          rw [← hkx, List.get_eq_getElem, List.getElem_take]
        rw [hxk]
        exact hrel
      have hstep := binsortStep_pairwise cur i hi hdefcur hpw hidxstep
      obtain ⟨hsperm, hslen, hstake⟩ := binsortStep_perm cur i hi
      obtain ⟨_, hsdrop, _⟩ := binsortStep_struct cur i _ rfl hi
      refine ih (binsortStep cur i) (i + 1) (by omega) (by omega) ?_ ?_ hstep
      · rw [hsdrop]
        exact htail
      · calc (binsortStep cur i).take (i + 1)
            ~ (cur.getD i dummyRow) :: cur.take i := hstake
          _ ~ (cur.getD i dummyRow) :: l.take i := List.Perm.cons _ htke
          _ = (l.getD i dummyRow) :: l.take i := by rw [hpivot]
          _ ~ l.take (i + 1) := by
              have h3 := List.take_add l i 1
              rw [hdl] at h3
              simp only [List.take_succ_cons, List.take_zero] at h3
              rw [List.getD_eq_getElem l dummyRow hil, h3]
              exact (List.perm_append_singleton _ _).symm

theorem runAscLen_le (prev : ScoredRow) :
    ∀ rest : List ScoredRow, runAscLen prev rest ≤ rest.length := by
  intro rest
  induction rest generalizing prev with
  | nil => exact Nat.le_refl 0
  | cons x xs ih =>
      rw [runAscLen]
      by_cases h : scoreLtb x.score prev.score = true
      · rw [if_pos h]
        exact Nat.zero_le _
      · rw [if_neg h, List.length_cons]
        have := ih x
        omega

theorem runDescLen_le (prev : ScoredRow) :
    ∀ rest : List ScoredRow, runDescLen prev rest ≤ rest.length := by
  intro rest
  induction rest generalizing prev with
  | nil => exact Nat.le_refl 0
  | cons x xs ih =>
      rw [runDescLen]
      by_cases h : scoreLtb x.score prev.score = true
      · rw [if_pos h, List.length_cons]
        have := ih x
        omega
      · rw [if_neg h]
        exact Nat.zero_le _

theorem runAscLen_chain (prev : ScoredRow) : ∀ rest : List ScoredRow,
    List.Chain (fun a b => scoreLtb b.score a.score = false) prev
      (rest.take (runAscLen prev rest)) := by
  intro rest
  induction rest generalizing prev with
  | nil => exact List.Chain.nil
  | cons x xs ih =>
      rw [runAscLen]
      by_cases h : scoreLtb x.score prev.score = true
      · rw [if_pos h]
        exact List.Chain.nil
      · rw [if_neg h, List.take_succ_cons]
        refine List.Chain.cons ?_ (ih x)
        cases hb : scoreLtb x.score prev.score
        · rfl
        · exact absurd hb h

theorem runDescLen_chain (prev : ScoredRow) : ∀ rest : List ScoredRow,
    List.Chain (fun a b => scoreLtb b.score a.score = true) prev
      (rest.take (runDescLen prev rest)) := by
  intro rest
  induction rest generalizing prev with
  | nil => exact List.Chain.nil
  | cons x xs ih =>
      rw [runDescLen]
      by_cases h : scoreLtb x.score prev.score = true
      · rw [if_pos h, List.take_succ_cons]
        exact List.Chain.cons h (ih x)
      · rw [if_neg h]
        exact List.Chain.nil

theorem countRun_fst_desc (a b : ScoredRow) (rest : List ScoredRow)
    (h : scoreLtb b.score a.score = true) :
    (countRun (a :: b :: rest)).1 = runDescLen b rest + 2 := by
  rw [countRun, if_pos h]

theorem countRun_fst_asc (a b : ScoredRow) (rest : List ScoredRow)
    (h : scoreLtb b.score a.score = false) :
    (countRun (a :: b :: rest)).1 = runAscLen b rest + 2 := by
  have hne : ¬ scoreLtb b.score a.score = true := by
    rw [h]
    simp
  rw [countRun, if_neg hne]

theorem countRun_snd_desc (a b : ScoredRow) (rest : List ScoredRow)
    (h : scoreLtb b.score a.score = true) :
    (countRun (a :: b :: rest)).2 = true := by
  rw [countRun, if_pos h]

theorem countRun_snd_asc (a b : ScoredRow) (rest : List ScoredRow)
    (h : scoreLtb b.score a.score = false) :
    (countRun (a :: b :: rest)).2 = false := by
  have hne : ¬ scoreLtb b.score a.score = true := by
    rw [h]
    simp
  rw [countRun, if_neg hne]

theorem countRun_le (l : List ScoredRow) : (countRun l).1 ≤ l.length := by
  cases l with
  | nil => exact Nat.le_refl 0
  | cons a t =>
      cases t with
      | nil => exact Nat.le_refl 1
      | cons b rest =>
          cases h : scoreLtb b.score a.score
          · rw [countRun_fst_asc a b rest h]
            have := runAscLen_le b rest
            simp only [List.length_cons]
            omega
          · rw [countRun_fst_desc a b rest h]
            have := runDescLen_le b rest
            simp only [List.length_cons]
            omega

theorem countRun_false_chain (a b : ScoredRow) (rest : List ScoredRow)
    (h : scoreLtb b.score a.score = false) :
    ((a :: b :: rest).take ((countRun (a :: b :: rest)).1)).Chain'
      (fun x y => scoreLtb y.score x.score = false) := by
  rw [countRun_fst_asc a b rest h, List.take_succ_cons, List.take_succ_cons]
  exact List.Chain.cons h (runAscLen_chain b rest)

theorem countRun_true_chain (a b : ScoredRow) (rest : List ScoredRow)
    (h : scoreLtb b.score a.score = true) :
    ((a :: b :: rest).take ((countRun (a :: b :: rest)).1)).Chain'
      (fun x y => scoreLtb y.score x.score = true) := by
  rw [countRun_fst_desc a b rest h, List.take_succ_cons, List.take_succ_cons]
  exact List.Chain.cons h (runDescLen_chain b rest)

theorem chain2_sAsc : ∀ L : List ScoredRow,
    L.Chain' (fun a b => scoreLtb b.score a.score = false) →
    L.Chain' (fun a b => b.idx < a.idx) → L.Chain' sAsc := by
  intro L
  induction L with
  | nil =>
      intro _ _
      exact List.chain'_nil
  | cons a t ih =>
      cases t with
      | nil =>
          intro _ _
          exact List.chain'_singleton a
      | cons b t2 =>
          intro h1 h2
          rw [List.chain'_cons] at h1 h2 ⊢
          refine ⟨?_, ih h1.2 h2.2⟩
          cases hab : scoreLtb a.score b.score
          · exact Or.inr ⟨hab, h1.1, h2.1⟩
          · exact Or.inl hab

theorem chain_strict_sAsc (L : List ScoredRow)
    (h : L.Chain' (fun a b => scoreLtb a.score b.score = true)) : L.Chain' sAsc :=
  List.Chain'.imp (fun _ _ hab => Or.inl hab) h

theorem pairwise_sAsc_of_chain : ∀ L : List ScoredRow,
    (∀ x ∈ L, ∃ c, x.score = Score.val c) → L.Chain' sAsc → L.Pairwise sAsc := by
  intro L
  induction L with
  | nil =>
      intro _ _
      exact List.Pairwise.nil
  | cons a t ih =>
      intro hd hch
      cases t with
      | nil => exact List.pairwise_singleton _ _
      | cons b t2 =>
          rw [List.chain'_cons] at hch
          have hpt := ih (fun x hx => hd x (List.mem_cons_of_mem a hx)) hch.2
          refine List.pairwise_cons.2 ⟨?_, hpt⟩
          intro y hy
          rcases List.mem_cons.1 hy with rfl | hy2
          · exact hch.1
          · have hby := (List.pairwise_cons.1 hpt).1 y hy2
            exact sAsc_trans (hd a (List.mem_cons_self a (b :: t2)))
              (hd b (List.mem_cons_of_mem a (List.mem_cons_self b t2)))
              (hd y (List.mem_cons_of_mem a (List.mem_cons_of_mem b hy2)))
              hch.1 hby

theorem pySortAsc_perm (l : List ScoredRow) : pySortAsc l ~ l := by
  have hk := countRun_le l
  unfold pySortAsc binarysortFrom
  split_ifs with hdesc
  · have hlp : ((l.take (countRun l).1).reverse ++ l.drop (countRun l).1) ~ l := by
      calc ((l.take (countRun l).1).reverse ++ l.drop (countRun l).1)
          ~ l.take (countRun l).1 ++ l.drop (countRun l).1 :=
            List.Perm.append_right _ (List.reverse_perm _)
        _ = l := List.take_append_drop _ l
    have hlen : ((l.take (countRun l).1).reverse ++ l.drop (countRun l).1).length =
        l.length := hlp.length_eq
    exact (binsortGo_perm _ _ _ (by omega)).trans hlp
  · exact binsortGo_perm _ _ _ (by omega)

theorem pySortAsc_pairwise (l : List ScoredRow)
    (hd : ∀ x ∈ l, ∃ c, x.score = Score.val c)
    (hidx : l.Pairwise (fun a b => b.idx < a.idx)) :
    (pySortAsc l).Pairwise sAsc := by
  have hk := countRun_le l
  unfold pySortAsc binarysortFrom
  split_ifs with hdesc
  · have hrevlen : ((l.take (countRun l).1).reverse).length = (countRun l).1 := by
      rw [List.length_reverse, List.length_take]
      omega
    have hlp_take : ((l.take (countRun l).1).reverse ++ l.drop (countRun l).1).take
        (countRun l).1 = (l.take (countRun l).1).reverse :=
      List.take_left' hrevlen
    have hlp_drop : ((l.take (countRun l).1).reverse ++ l.drop (countRun l).1).drop
        (countRun l).1 = l.drop (countRun l).1 :=
      List.drop_left' hrevlen
    have hlp_len : ((l.take (countRun l).1).reverse ++ l.drop (countRun l).1).length =
        l.length := by
      rw [List.length_append, List.length_reverse, List.length_take, List.length_drop]
      omega
    have hchain : (l.take (countRun l).1).Chain'
        (fun a b => scoreLtb b.score a.score = true) := by
      cases l with
      | nil => simp [countRun] at hdesc
      | cons a t =>
          cases t with
          | nil => simp [countRun] at hdesc
          | cons b rest =>
              cases hc : scoreLtb b.score a.score
              · rw [countRun_snd_asc a b rest hc] at hdesc
                simp at hdesc
              · exact countRun_true_chain a b rest hc
    have hrev : ((l.take (countRun l).1).reverse).Chain'
        (fun a b => scoreLtb a.score b.score = true) := by
      rw [List.chain'_reverse]
      exact hchain
    have hpw0 : (((l.take (countRun l).1).reverse)).Pairwise sAsc :=
      pairwise_sAsc_of_chain _
        (fun x hx => hd x (List.mem_of_mem_take (List.mem_reverse.1 hx)))
        (chain_strict_sAsc _ hrev)
    refine binsortGo_invariant l hd hidx _ _ _ (by omega) hlp_len ?_ ?_ ?_
    · rw [hlp_drop]
    · rw [hlp_take]
      exact List.reverse_perm _
    · rw [hlp_take]
      exact hpw0
  · have hchain : (l.take (countRun l).1).Chain'
        (fun a b => scoreLtb b.score a.score = false) := by
      cases l with
      | nil => exact List.chain'_nil
      | cons a t =>
          cases t with
          | nil => exact List.chain'_singleton a
          | cons b rest =>
              cases hc : scoreLtb b.score a.score
              · exact countRun_false_chain a b rest hc
              · exact absurd (countRun_snd_desc a b rest hc) hdesc
    have hidxchain : (l.take (countRun l).1).Chain' (fun a b => b.idx < a.idx) :=
      (hidx.sublist (List.take_sublist _ _)).chain'
    have hpw0 : (l.take (countRun l).1).Pairwise sAsc :=
      pairwise_sAsc_of_chain _ (fun x hx => hd x (List.mem_of_mem_take hx))
        (chain2_sAsc _ hchain hidxchain)
    exact binsortGo_invariant l hd hidx _ _ _ (by omega) rfl rfl
      (List.Perm.refl _) hpw0

theorem pySortDesc_perm (l : List ScoredRow) : pySortDesc l ~ l := by
  unfold pySortDesc
  calc (pySortAsc l.reverse).reverse
      ~ pySortAsc l.reverse := List.reverse_perm _
    _ ~ l.reverse := pySortAsc_perm _
    _ ~ l := List.reverse_perm _

theorem pySortDesc_pairwise (l : List ScoredRow)
    (hd : ∀ x ∈ l, ∃ c, x.score = Score.val c)
    (hidx : l.Pairwise (fun a b => a.idx < b.idx)) :
    (pySortDesc l).Pairwise rankLt := by
  have h1 : l.reverse.Pairwise (fun a b => b.idx < a.idx) := by
    rw [List.pairwise_reverse]
    exact hidx
  have h2 : ∀ x ∈ l.reverse, ∃ c, x.score = Score.val c := by
    intro x hx
    exact hd x (List.mem_reverse.1 hx)
  have h3 := pySortAsc_pairwise l.reverse h2 h1
  unfold pySortDesc
  rw [List.pairwise_reverse]
  exact h3

theorem photoRanking_perm (q : List ℚ) (tbl : List PhotoRow) :
    (photoRanking q tbl).Perm (scoredRows q tbl) :=
  pySortDesc_perm _

theorem rowScore_of_null (q : List ℚ) (r : PhotoRow) (h : r.emb = EmbCol.null) :
    rowScore q r = none := by
  unfold rowScore
  rw [h]

theorem rowScore_of_malformed (q : List ℚ) (r : PhotoRow)
    (h : r.emb = EmbCol.malformed) : rowScore q r = none := by
  unfold rowScore
  rw [h]

theorem rowScore_of_vec (q : List ℚ) (r : PhotoRow) (v : List ℚ)
    (h : r.emb = EmbCol.vec v) :
    rowScore q r = if v.length = q.length then some (cosScore q v) else none := by
  unfold rowScore
  rw [h]

theorem scoreRowsAux_mem_score (q : List ℚ) :
    ∀ (rs : List PhotoRow) (i : ℕ) (s : ScoredRow), s ∈ scoreRowsAux q i rs →
      ∃ r, r ∈ rs ∧ rowScore q r = some s.score := by
  intro rs
  induction rs with
  | nil =>
      intro i s hs
      rw [scoreRowsAux] at hs
      cases hs
  | cons r t ih =>
      intro i s hs
      rw [scoreRowsAux] at hs
      cases hsc : rowScore q r with
      | none =>
          rw [hsc] at hs
          obtain ⟨r2, h1, h2⟩ := ih (i + 1) s hs
          exact ⟨r2, List.mem_cons_of_mem r h1, h2⟩
      | some sc =>
          rw [hsc] at hs
          rcases List.mem_cons.1 hs with rfl | hst
          · exact ⟨r, List.mem_cons_self r t, by rw [hsc]⟩
          · obtain ⟨r2, h1, h2⟩ := ih (i + 1) s hst
            exact ⟨r2, List.mem_cons_of_mem r h1, h2⟩

theorem scoredRows_defined (q : List ℚ) (tbl : List PhotoRow)
    (hnz : ∀ r ∈ tbl, ∀ v, r.emb = EmbCol.vec v → v.length = q.length →
      sumSq q * sumSq v ≠ 0) :
    ∀ s ∈ scoredRows q tbl, ∃ c, s.score = Score.val c := by
  intro s hs
  obtain ⟨r, hr, hscore⟩ := scoreRowsAux_mem_score q _ 0 s hs
  have hrt : r ∈ tbl := (List.mem_filter.1 hr).1
  cases hemb : r.emb with
  | null =>
      rw [rowScore_of_null q r hemb] at hscore
      exact Option.noConfusion hscore
  | malformed =>
      rw [rowScore_of_malformed q r hemb] at hscore
      exact Option.noConfusion hscore
  | vec v =>
      rw [rowScore_of_vec q r v hemb] at hscore
      by_cases hlen : v.length = q.length
      · rw [if_pos hlen] at hscore
        injection hscore with hscore
        obtain ⟨c, hc1, _, _, _⟩ := cosScore_val_toReal q v (hnz r hrt v hemb hlen)
        exact ⟨c, by rw [← hscore, hc1]⟩
      · rw [if_neg hlen] at hscore
        exact Option.noConfusion hscore

theorem photoRanking_pairwise (q : List ℚ) (tbl : List PhotoRow)
    (hnz : ∀ r ∈ tbl, ∀ v, r.emb = EmbCol.vec v → v.length = q.length →
      sumSq q * sumSq v ≠ 0) :
    (photoRanking q tbl).Pairwise rankLt :=
  pySortDesc_pairwise _ (scoredRows_defined q tbl hnz) (scoredRows_pairwise_idx q tbl)
/-! ## Row-level classification lemmas -/

/-- A stored row the similarity loop can score: its `embedding` column decodes
to a vector of the query's length. -/
def wellFormedRow (q : List ℚ) (r : PhotoRow) : Bool :=
  match r.emb with
  | .vec v => v.length == q.length
  | _ => false

theorem rowScore_isSome_iff (q : List ℚ) (r : PhotoRow) :
    (rowScore q r).isSome = wellFormedRow q r := by
  unfold rowScore wellFormedRow
  cases r.emb with
  | null => rfl
  | malformed => rfl
  | vec v =>
      by_cases h : v.length = q.length
      · simp [h]
      · simp [h]

theorem scoreRowsAux_map_ids (q : List ℚ) :
    ∀ (rs : List PhotoRow) (i : ℕ),
      (scoreRowsAux q i rs).map (fun s => (s.uuid, s.description)) =
        (rs.filter (fun r => wellFormedRow q r)).map (fun r => (r.uuid, r.description)) := by
  intro rs
  induction rs with
  | nil => intro i; simp [scoreRowsAux]
  | cons r t ih =>
      intro i
      rw [scoreRowsAux]
      cases hsc : rowScore q r with
      | none =>
          have hwf : wellFormedRow q r = false := by
            rw [← rowScore_isSome_iff, hsc]; rfl
          simp [List.filter_cons, hwf, ih (i + 1)]
      | some sc =>
          have hwf : wellFormedRow q r = true := by
            rw [← rowScore_isSome_iff, hsc]; rfl
          simp [List.filter_cons, hwf, ih (i + 1)]

theorem scoreRowsAux_eq_nil (q : List ℚ) :
    ∀ (rs : List PhotoRow) (i : ℕ), (∀ r ∈ rs, rowScore q r = none) →
      scoreRowsAux q i rs = [] := by
  intro rs
  induction rs with
  | nil => intro i _; rfl
  | cons r t ih =>
      intro i h
      rw [scoreRowsAux, h r (List.mem_cons_self r t)]
      exact ih (i + 1) (fun r' hr' => h r' (List.mem_cons_of_mem r hr'))

theorem searchPhotos_score_from_ranking (q : List ℚ) (tbl : List PhotoRow) (n : ℕ)
    (i : ℕ) (hi : i < (searchPhotos q tbl n).length) :
    ∃ hi' : i < (photoRanking q tbl).length,
      ((searchPhotos q tbl n).get ⟨i, hi⟩).score =
        ((photoRanking q tbl).get ⟨i, hi'⟩).score := by
  have hi2 : i < ((photoRanking q tbl).take n).length := by
    simpa [searchPhotos] using hi
  have hi' : i < (photoRanking q tbl).length := by
    rw [List.length_take] at hi2
    exact lt_of_lt_of_le hi2 (min_le_right _ _)
  refine ⟨hi', ?_⟩
  simp [searchPhotos, List.get_eq_getElem, List.getElem_take]

/-! ## The search claims -/

/-- A bare photo row used in concrete instances: only identifying columns and
the embedding vary, the metadata columns take the writer's defaults. -/
def mkRow (u d : String) (e : EmbCol) : PhotoRow :=
  ⟨u, d, e, none, none, none, none, none, false, none, none, "square",
    false, false, none, "vibrantfrogmcp", "llava"⟩

theorem scoreRowsAux_congr (q : List ℚ) :
    ∀ (rs rs2 : List PhotoRow) (i : ℕ),
      rs.map (fun r => (r.uuid, r.description, r.emb)) =
        rs2.map (fun r => (r.uuid, r.description, r.emb)) →
      scoreRowsAux q i rs = scoreRowsAux q i rs2 := by
  intro rs
  induction rs with
  | nil =>
      intro rs2 i h
      cases rs2 with
      | nil => rfl
      | cons r2 t2 => simp at h
  | cons r t ih =>
      intro rs2 i h
      cases rs2 with
      | nil => simp at h
      | cons r2 t2 =>
          simp only [List.map_cons, List.cons.injEq, Prod.mk.injEq] at h
          obtain ⟨⟨hu, hdsc, hemb⟩, htl⟩ := h
          have hrow : rowScore q r = rowScore q r2 := by
            unfold rowScore
            rw [hemb]
          rw [scoreRowsAux, scoreRowsAux, ← hrow]
          cases hsc : rowScore q r with
          | none =>
              simp only [hsc]
              exact ih t2 (i + 1) htl
          | some sc =>
              simp only [hsc]
              rw [hu, hdsc, ih t2 (i + 1) htl]

theorem filter_proj_congr :
    ∀ tbl tbl2 : List PhotoRow,
      tbl.map (fun r => (r.uuid, r.description, r.emb)) =
        tbl2.map (fun r => (r.uuid, r.description, r.emb)) →
      (tbl.filter (fun r => r.emb ≠ EmbCol.null)).map
          (fun r => (r.uuid, r.description, r.emb)) =
        (tbl2.filter (fun r => r.emb ≠ EmbCol.null)).map
          (fun r => (r.uuid, r.description, r.emb)) := by
  intro tbl
  induction tbl with
  | nil =>
      intro tbl2 h
      cases tbl2 with
      | nil => rfl
      | cons r2 t2 => simp at h
  | cons r t ih =>
      intro tbl2 h
      cases tbl2 with
      | nil => simp at h
      | cons r2 t2 =>
          simp only [List.map_cons, List.cons.injEq, Prod.mk.injEq] at h
          obtain ⟨⟨hu, hdsc, hemb⟩, htl⟩ := h
          simp only [List.filter_cons]
          have hdec : (decide (r.emb ≠ EmbCol.null)) = (decide (r2.emb ≠ EmbCol.null)) := by
            rw [hemb]
          rw [← hdec]
          cases hdd : decide (r.emb ≠ EmbCol.null)
          · rw [if_neg Bool.false_ne_true, if_neg Bool.false_ne_true]
            exact ih t2 htl
          · rw [if_pos rfl, if_pos rfl]
            simp only [List.map_cons, List.cons.injEq, Prod.mk.injEq]
            exact ⟨⟨hu, hdsc, hemb⟩, ih t2 htl⟩

theorem scoredRows_congr (q : List ℚ) (tbl tbl2 : List PhotoRow)
    (h : tbl.map (fun r => (r.uuid, r.description, r.emb)) =
      tbl2.map (fun r => (r.uuid, r.description, r.emb))) :
    scoredRows q tbl = scoredRows q tbl2 := by
  unfold scoredRows
  exact scoreRowsAux_congr q _ _ 0 (filter_proj_congr tbl tbl2 h)

theorem searchPhotos_congr (q : List ℚ) (n : ℕ) (tbl tbl2 : List PhotoRow)
    (h : tbl.map (fun r => (r.uuid, r.description, r.emb)) =
      tbl2.map (fun r => (r.uuid, r.description, r.emb))) :
    searchPhotos q tbl n = searchPhotos q tbl2 n := by
  unfold searchPhotos photoRanking
  rw [scoredRows_congr q tbl tbl2 h]

/-- C1, counterexample to the unrestricted ordering claim.  The store holds,
in row order, a vector of cosine −1, a zero vector (whose similarity is the
NaN of the unguarded division) and a vector of cosine 1; the query is `[1]`.
In the pre-reversed list the keys read `1, NaN, −1`; every comparison CPython
evaluates against the NaN key is false, so `count_run` accepts the whole list
as one non-descending run, the sort returns it unchanged, and the final
reversal restores the original row order: the result ranks the cosine −1 row
first and the cosine 1 row last, although the latter's real cosine is
strictly larger — the claimed descending order fails on this store. -/
theorem search_photos_C1_cex :
    searchPhotos [1] [mkRow "a" "low" (EmbCol.vec [-1]), mkRow "z" "zero" (EmbCol.vec [0]),
        mkRow "b" "high" (EmbCol.vec [1])] 3 =
      [⟨"a", "low", Score.val ⟨-1, 1, by norm_num⟩⟩,
        ⟨"z", "zero", Score.nan⟩,
        ⟨"b", "high", Score.val ⟨1, 1, by norm_num⟩⟩]
  ∧ realCosine [1] [-1] < realCosine [1] [1] := by
  constructor
  · have hlow : rowScore [1] (mkRow "a" "low" (EmbCol.vec [-1])) =
        some (Score.val ⟨-1, 1, by norm_num⟩) := by
      rw [rowScore_of_vec [1] (mkRow "a" "low" (EmbCol.vec [-1])) [-1] rfl]
      show some (cosScore [1] [-1]) = some (Score.val ⟨-1, 1, by norm_num⟩)
      rw [cosScore, dif_neg (by norm_num [sumSq])]
      exact congrArg (fun c => some (Score.val c))
        (CosVal.mk_eq (by norm_num [dotQ]) (by norm_num [sumSq]))
    have hzero : rowScore [1] (mkRow "z" "zero" (EmbCol.vec [0])) = some Score.nan := by
      rw [rowScore_of_vec [1] (mkRow "z" "zero" (EmbCol.vec [0])) [0] rfl]
      show some (cosScore [1] [0]) = some Score.nan
      rw [cosScore, dif_pos (by norm_num [sumSq])]
    have hhigh : rowScore [1] (mkRow "b" "high" (EmbCol.vec [1])) =
        some (Score.val ⟨1, 1, by norm_num⟩) := by
      rw [rowScore_of_vec [1] (mkRow "b" "high" (EmbCol.vec [1])) [1] rfl]
      show some (cosScore [1] [1]) = some (Score.val ⟨1, 1, by norm_num⟩)
      rw [cosScore, dif_neg (by norm_num [sumSq])]
      exact congrArg (fun c => some (Score.val c))
        (CosVal.mk_eq (by norm_num [dotQ]) (by norm_num [sumSq]))
    have hflt : [mkRow "a" "low" (EmbCol.vec [-1]), mkRow "z" "zero" (EmbCol.vec [0]),
        mkRow "b" "high" (EmbCol.vec [1])].filter (fun r => r.emb ≠ EmbCol.null) =
        [mkRow "a" "low" (EmbCol.vec [-1]), mkRow "z" "zero" (EmbCol.vec [0]),
          mkRow "b" "high" (EmbCol.vec [1])] := rfl
    have hsc : scoredRows [1] [mkRow "a" "low" (EmbCol.vec [-1]),
        mkRow "z" "zero" (EmbCol.vec [0]), mkRow "b" "high" (EmbCol.vec [1])] =
        [⟨0, "a", "low", Score.val ⟨-1, 1, by norm_num⟩⟩,
          ⟨1, "z", "zero", Score.nan⟩,
          ⟨2, "b", "high", Score.val ⟨1, 1, by norm_num⟩⟩] := by
      unfold scoredRows
      rw [hflt, scoreRowsAux, hlow, scoreRowsAux, hzero, scoreRowsAux, hhigh]
      rfl
    unfold searchPhotos photoRanking
    rw [hsc]
    rfl
  · have e1 : sumSq [(1 : ℚ)] = 1 := by norm_num [sumSq]
    have e2 : sumSq [(-1 : ℚ)] = 1 := by norm_num [sumSq]
    have e3 : dotQ [(1 : ℚ)] [-1] = -1 := by norm_num [dotQ]
    have e4 : dotQ [(1 : ℚ)] [1] = 1 := by norm_num [dotQ]
    unfold realCosine
    rw [e1, e2, e3, e4]
    norm_num [Real.sqrt_one]

/-- C1 amended.  With `limit > 0`: `search` returns at most `limit` results,
returns the empty list — not an error — when the store holds zero photo
embeddings, and the returned list is the `limit`-prefix of the full ranking,
a permutation of all scored candidates.  The descending-order part of the
claim needs a restriction the spec omits: when no surviving stored vector
(nor the query) has zero norm, so that no NaN score arises and every key
comparison the sort makes is decided, the ranking is sorted by descending
cosine — at any two positions the earlier defined real cosine is at least
the later one, in the full ranking and in the returned prefix — and a
defined score denotes exactly the real cosine `dot/(‖q‖·‖v‖)`.  With a NaN
key present every comparison against it is false and the order genuinely
breaks (see the counterexample). -/
theorem search_photos_C1_amended (tbl : List PhotoRow) (q : List ℚ) (n : ℕ)
    (_hn : 0 < n) :
    (searchPhotos q tbl n).length ≤ n
  ∧ (tbl.filter (fun r => r.emb ≠ EmbCol.null) = [] → searchPhotos q tbl n = [])
  ∧ (photoRanking q tbl).Perm (scoredRows q tbl)
  ∧ searchPhotos q tbl n =
      ((photoRanking q tbl).take n).map (fun s => ⟨s.uuid, s.description, s.score⟩)
  ∧ ((∀ r ∈ tbl, ∀ v, r.emb = EmbCol.vec v → v.length = q.length →
        sumSq q * sumSq v ≠ 0) →
      (∀ i j (hi : i < (photoRanking q tbl).length) (hj : j < (photoRanking q tbl).length),
        i < j → ∀ ci cj, ((photoRanking q tbl).get ⟨i, hi⟩).score = Score.val ci →
          ((photoRanking q tbl).get ⟨j, hj⟩).score = Score.val cj → cj.toReal ≤ ci.toReal)
    ∧ (∀ i j (hi : i < (searchPhotos q tbl n).length)
          (hj : j < (searchPhotos q tbl n).length),
        i < j → ∀ ci cj, ((searchPhotos q tbl n).get ⟨i, hi⟩).score = Score.val ci →
          ((searchPhotos q tbl n).get ⟨j, hj⟩).score = Score.val cj →
          cj.toReal ≤ ci.toReal))
  ∧ (∀ v, sumSq q * sumSq v ≠ 0 →
      ∃ c, cosScore q v = Score.val c ∧ c.toReal = realCosine q v) := by
  refine ⟨?_, ?_, photoRanking_perm q tbl, rfl, ?_, ?_⟩
  · simp [searchPhotos]
  · intro hempty
    have h1 : scoredRows q tbl = [] := by
      unfold scoredRows
      rw [hempty]
      rfl
    unfold searchPhotos photoRanking
    rw [h1, pySortDesc_nil]
    simp
  · intro hnz
    have hpw := photoRanking_pairwise q tbl hnz
    have hrank : ∀ i j (hi : i < (photoRanking q tbl).length)
        (hj : j < (photoRanking q tbl).length),
        i < j → ∀ ci cj, ((photoRanking q tbl).get ⟨i, hi⟩).score = Score.val ci →
          ((photoRanking q tbl).get ⟨j, hj⟩).score = Score.val cj →
          cj.toReal ≤ ci.toReal := by
      intro i j hi hj hij ci cj hci hcj
      have hrel := List.pairwise_iff_get.1 hpw ⟨i, hi⟩ ⟨j, hj⟩ hij
      rcases hrel with hlt | ⟨_, h2, _⟩
      · rw [hcj, hci] at hlt
        exact le_of_lt ((scoreLtb_val_iff cj ci).1 hlt)
      · rw [hci, hcj] at h2
        exact (scoreLtb_val_false_iff ci cj).1 h2
    refine ⟨hrank, ?_⟩
    intro i j hi hj hij ci cj hci hcj
    obtain ⟨hi2, hei⟩ := searchPhotos_score_from_ranking q tbl n i hi
    obtain ⟨hj2, hej⟩ := searchPhotos_score_from_ranking q tbl n j hj
    exact hrank i j hi2 hj2 hij ci cj (hei ▸ hci) (hej ▸ hcj)
  · intro v hv
    obtain ⟨c, hc1, hc2, _, _⟩ := cosScore_val_toReal q v hv
    exact ⟨c, hc1, hc2⟩

theorem search_photos_C1_witness :
    0 < 2 ∧ (searchPhotos [1] [mkRow "a" "alpha" (EmbCol.vec [1]),
      mkRow "b" "beta" (EmbCol.vec [-1])] 2).length ≤ 2 :=
  ⟨by norm_num,
    (search_photos_C1_amended [mkRow "a" "alpha" (EmbCol.vec [1]),
      mkRow "b" "beta" (EmbCol.vec [-1])] [1] 2 (by norm_num)).1⟩

/-- C8.  Search is deterministic: the result is a pure function of the store
contents, the query and the limit — the model is that function, so a repeat
of the same call gives the same list — and the query path reads only the
`uuid`, `description` and `embedding` columns, so two store states that
agree row for row on those columns (the same store read twice, however the
unrelated metadata changed in between) give identical ordered result lists.
Ties are pinned by the stable sort: when every score is defined (no NaN key,
the only case in which two keys can compare equal), candidates of equal real
similarity appear in the ranking in their original row order. -/
theorem search_determinism_C8 (tbl tbl2 : List PhotoRow) (q : List ℚ) (n : ℕ) :
    searchPhotos q tbl n = searchPhotos q tbl n
  ∧ (tbl.map (fun r => (r.uuid, r.description, r.emb)) =
      tbl2.map (fun r => (r.uuid, r.description, r.emb)) →
      searchPhotos q tbl n = searchPhotos q tbl2 n)
  ∧ ((∀ r ∈ tbl, ∀ v, r.emb = EmbCol.vec v → v.length = q.length →
        sumSq q * sumSq v ≠ 0) →
      ∀ i j (hi : i < (photoRanking q tbl).length) (hj : j < (photoRanking q tbl).length),
        i < j → ∀ ci cj, ((photoRanking q tbl).get ⟨i, hi⟩).score = Score.val ci →
          ((photoRanking q tbl).get ⟨j, hj⟩).score = Score.val cj →
          ci.toReal = cj.toReal →
          ((photoRanking q tbl).get ⟨i, hi⟩).idx < ((photoRanking q tbl).get ⟨j, hj⟩).idx) := by
  refine ⟨rfl, searchPhotos_congr q n tbl tbl2, ?_⟩
  intro hnz i j hi hj hij ci cj hci hcj heq
  have hpw := photoRanking_pairwise q tbl hnz
  have hrel := List.pairwise_iff_get.1 hpw ⟨i, hi⟩ ⟨j, hj⟩ hij
  rcases hrel with hlt | ⟨_, _, hidx⟩
  · rw [hcj, hci] at hlt
    have hcon := (scoreLtb_val_iff cj ci).1 hlt
    rw [heq] at hcon
    exact absurd hcon (lt_irrefl _)
  · exact hidx

/-- Store used in the C8 witness, and the same rows with an unrelated
metadata column (`favorite`) changed on the first one. -/
def c8tbl : List PhotoRow :=
  [mkRow "a" "alpha" (EmbCol.vec [2]), mkRow "b" "beta" (EmbCol.vec [1])]

def c8tbl2 : List PhotoRow :=
  [{ mkRow "a" "alpha" (EmbCol.vec [2]) with favorite := true },
    mkRow "b" "beta" (EmbCol.vec [1])]

theorem search_determinism_C8_witness :
    c8tbl.map (fun r => (r.uuid, r.description, r.emb)) =
      c8tbl2.map (fun r => (r.uuid, r.description, r.emb)) ∧
    searchPhotos [1] c8tbl 5 = searchPhotos [1] c8tbl2 5 :=
  ⟨rfl, (search_determinism_C8 c8tbl c8tbl2 [1] 5).2.1 rfl⟩
/-- C10.  A row whose stored embedding cannot be used (it does not decode to
a vector, or its length differs from the query's) is skipped, never raised:
the scored candidates are exactly the decodable rows of the query's
dimension, in row order, and the returned list is the sorted ranking of
exactly those candidates. -/
theorem search_malformed_C10 (q : List ℚ) (tbl : List PhotoRow) (n : ℕ) :
    (scoredRows q tbl).map (fun s => (s.uuid, s.description)) =
      ((tbl.filter (fun r => r.emb ≠ EmbCol.null)).filter
        (fun r => wellFormedRow q r)).map (fun r => (r.uuid, r.description))
  ∧ (photoRanking q tbl).Perm (scoredRows q tbl)
  ∧ searchPhotos q tbl n =
      ((photoRanking q tbl).take n).map (fun s => ⟨s.uuid, s.description, s.score⟩) :=
  ⟨scoreRowsAux_map_ids q _ 0, photoRanking_perm q tbl, rfl⟩

/-- C4 counterexample.  A stored zero vector of the query's length is kept
with an undefined (NaN) similarity — the code divides by the zero norm
product without a guard — and an undefined score is not the similarity `0`
the claim asserts. -/
theorem search_zero_norm_C4_cex :
    searchPhotos [1, 0] [mkRow "z" "zeta" (EmbCol.vec [0, 0])] 5 =
      [⟨"z", "zeta", Score.nan⟩] ∧ ∀ c : CosVal, Score.nan ≠ Score.val c := by
  constructor
  · have hrow : rowScore [1, 0] (mkRow "z" "zeta" (EmbCol.vec [0, 0])) =
        some Score.nan := by
      rw [rowScore_of_vec [1, 0] (mkRow "z" "zeta" (EmbCol.vec [0, 0])) [0, 0] rfl]
      show some (cosScore [1, 0] [0, 0]) = some Score.nan
      rw [cosScore, dif_pos (by norm_num [sumSq])]
    have hflt : [mkRow "z" "zeta" (EmbCol.vec [0, 0])].filter
        (fun r => r.emb ≠ EmbCol.null) = [mkRow "z" "zeta" (EmbCol.vec [0, 0])] := rfl
    have hsc : scoredRows [1, 0] [mkRow "z" "zeta" (EmbCol.vec [0, 0])] =
        [⟨0, "z", "zeta", Score.nan⟩] := by
      unfold scoredRows
      rw [hflt, scoreRowsAux, hrow]
      rfl
    unfold searchPhotos photoRanking
    rw [hsc]
    rfl
  · exact fun _ h => nomatch h

/-- C4 amended.  A zero-norm query or stored vector of the right length does
not fault and is not skipped: the row keeps an undefined (NaN) similarity
score, which is not `0` or any other defined value. -/
theorem search_zero_norm_C4_amended (q v : List ℚ) (r : PhotoRow)
    (hr : r.emb = EmbCol.vec v) (hlen : v.length = q.length)
    (h0 : sumSq q * sumSq v = 0) :
    rowScore q r = some Score.nan ∧ cosScore q v = Score.nan := by
  constructor
  · unfold rowScore
    rw [hr]
    simp [hlen, cosScore, h0]
  · simp [cosScore, h0]

theorem search_zero_norm_C4_witness :
    sumSq [(1 : ℚ), 0] * sumSq [(0 : ℚ), 0] = 0 ∧
      rowScore [(1 : ℚ), 0] (mkRow "z" "zeta" (EmbCol.vec [0, 0])) = some Score.nan :=
  ⟨by norm_num [sumSq],
    (search_zero_norm_C4_amended [1, 0] [0, 0] (mkRow "z" "zeta" (EmbCol.vec [0, 0]))
      rfl rfl (by norm_num [sumSq])).1⟩

/-- C5 counterexample.  A store holding a 2-dimensional and a 3-dimensional
embedding, searched with a 2-dimensional query: no error of any kind is
raised — the incompatible row is skipped and a result list is returned. -/
theorem search_dim_mismatch_C5_cex :
    searchPhotos [1, 0]
        [mkRow "good" "g" (EmbCol.vec [1, 0]), mkRow "bad" "b" (EmbCol.vec [1, 1, 1])] 5 =
      [⟨"good", "g", Score.val ⟨1, 1, by norm_num⟩⟩]
  ∧ rowScore [1, 0] (mkRow "bad" "b" (EmbCol.vec [1, 1, 1])) = none := by
  have hbad : rowScore [1, 0] (mkRow "bad" "b" (EmbCol.vec [1, 1, 1])) = none :=
    (rowScore_of_vec [1, 0] (mkRow "bad" "b" (EmbCol.vec [1, 1, 1])) [1, 1, 1] rfl).trans rfl
  constructor
  · have hc : cosScore [1, 0] [1, 0] = Score.val ⟨1, 1, by norm_num⟩ := by
      rw [cosScore, dif_neg (by norm_num [sumSq])]
      exact congrArg Score.val (CosVal.mk_eq (by norm_num [dotQ]) (by norm_num [sumSq]))
    have hgood : rowScore [1, 0] (mkRow "good" "g" (EmbCol.vec [1, 0])) =
        some (Score.val ⟨1, 1, by norm_num⟩) := by
      rw [rowScore_of_vec [1, 0] (mkRow "good" "g" (EmbCol.vec [1, 0])) [1, 0] rfl]
      show some (cosScore [1, 0] [1, 0]) = some (Score.val ⟨1, 1, by norm_num⟩)
      rw [hc]
    have hflt : [mkRow "good" "g" (EmbCol.vec [1, 0]),
        mkRow "bad" "b" (EmbCol.vec [1, 1, 1])].filter (fun r => r.emb ≠ EmbCol.null) =
        [mkRow "good" "g" (EmbCol.vec [1, 0]), mkRow "bad" "b" (EmbCol.vec [1, 1, 1])] := rfl
    have hsc : scoredRows [1, 0] [mkRow "good" "g" (EmbCol.vec [1, 0]),
        mkRow "bad" "b" (EmbCol.vec [1, 1, 1])] =
        [⟨0, "good", "g", Score.val ⟨1, 1, by norm_num⟩⟩] := by
      unfold scoredRows
      rw [hflt, scoreRowsAux, hgood, scoreRowsAux, hbad]
      rfl
    unfold searchPhotos photoRanking
    rw [hsc]
    rfl
  · exact hbad

/-- C5 amended.  A stored vector whose length differs from the query
embedding's raises nothing: the per-row exception is caught and the row
skipped; if every stored vector's length differs from the query's, `search`
returns the empty list instead of aborting. -/
theorem search_dim_mismatch_C5_amended (q v : List ℚ) (r : PhotoRow)
    (tbl : List PhotoRow) (n : ℕ)
    (hr : r.emb = EmbCol.vec v) (hlen : v.length ≠ q.length) :
    rowScore q r = none
  ∧ ((∀ r' ∈ tbl, ∀ v', r'.emb = EmbCol.vec v' → v'.length ≠ q.length) →
      searchPhotos q tbl n = []) := by
  constructor
  · unfold rowScore
    rw [hr]
    simp [hlen]
  · intro hall
    have h1 : scoredRows q tbl = [] := by
      unfold scoredRows
      refine scoreRowsAux_eq_nil q _ 0 ?_
      intro r' hr'
      have hmem : r' ∈ tbl := (List.mem_filter.1 hr').1
      unfold rowScore
      cases hemb : r'.emb with
      | null => rfl
      | malformed => rfl
      | vec v' => simp [hall r' hmem v' hemb]
    unfold searchPhotos photoRanking
    rw [h1, pySortDesc_nil]
    simp

theorem search_dim_mismatch_C5_witness :
    (mkRow "bad" "b" (EmbCol.vec [1, 1, 1])).emb = EmbCol.vec [1, 1, 1] ∧
      [(1 : ℚ), 1, 1].length ≠ [(1 : ℚ), 0].length ∧
      rowScore [(1 : ℚ), 0] (mkRow "bad" "b" (EmbCol.vec [1, 1, 1])) = none :=
  ⟨rfl, by norm_num,
    (search_dim_mismatch_C5_amended [1, 0] [1, 1, 1]
      (mkRow "bad" "b" (EmbCol.vec [1, 1, 1])) [] 5 rfl (by norm_num)).1⟩
/-! ## The photo upsert (`shared_index.py`, `SharedPhotoIndex.index_photo`) -/

/-- The subset of an osxphotos `PhotoInfo` object read by `index_photo`. -/
structure PhotoInfo where
  uuid : String
  originalFilename : String
  date : Option String
  placeName : Option String
  albums : List String
  keywords : List String
  favorite : Bool
  width : Option ℤ
  height : Option ℤ
  iscloudasset : Bool
  hasadjustments : Bool

/-- Orientation classification (`shared_index.py` 195-201): `"square"` unless
both dimensions are truthy (present and nonzero) and one side exceeds the
other by more than 10%. -/
def orientationOf (w h : Option ℤ) : String :=
  match w, h with
  | some w, some h =>
      if w ≠ 0 ∧ h ≠ 0 then
        if (w : ℚ) > (h : ℚ) * (11 / 10) then "landscape"
        else if (h : ℚ) > (w : ℚ) * (11 / 10) then "portrait"
        else "square"
      else "square"
  | _, _ => "square"

/-- The row tuple bound by the `INSERT OR REPLACE INTO photo_index` statement
(`shared_index.py` 207-233): albums/keywords serialize to NULL when empty. -/
def rowOf (p : PhotoInfo) (description : String) (embedding : List ℚ)
    (cloudGuid : Option String) : PhotoRow :=
  { uuid := p.uuid
    description := description
    emb := EmbCol.vec embedding
    filename := some p.originalFilename
    dateTaken := p.date
    location := p.placeName
    albums := if p.albums = [] then none else some p.albums
    keywords := if p.keywords = [] then none else some p.keywords
    favorite := p.favorite
    width := p.width
    height := p.height
    orientation := orientationOf p.width p.height
    cloudAsset := p.iscloudasset
    hasAdjustments := p.hasadjustments
    cloudGuid := cloudGuid
    indexedBy := "vibrantfrogmcp"
    descriptionSource := "llava" }

/-- The statement `INSERT OR REPLACE` on the `uuid TEXT PRIMARY KEY`: any row with the same
key is deleted and the fresh row inserted (SQLite assigns it a new, larger
rowid, so subsequent unordered scans see it after the surviving rows). -/
def upsertRow (tbl : List PhotoRow) (r : PhotoRow) : List PhotoRow :=
  tbl.filter (fun x => x.uuid ≠ r.uuid) ++ [r]

/-- The method `SharedPhotoIndex.index_photo`: build the row from the photo's fields and
upsert it by `uuid`. -/
def index_photo (tbl : List PhotoRow) (p : PhotoInfo) (description : String)
    (embedding : List ℚ) (cloudGuid : Option String) : List PhotoRow :=
  upsertRow tbl (rowOf p description embedding cloudGuid)

/-- C9.  Upserting the same photo id twice leaves exactly one row for the id,
carrying every field of the second upsert, and leaves all rows with other
ids exactly as they were. -/
theorem index_photo_C9 (tbl : List PhotoRow) (p1 p2 : PhotoInfo)
    (d1 d2 : String) (e1 e2 : List ℚ) (g1 g2 : Option String)
    (huuid : p1.uuid = p2.uuid) :
    ((index_photo (index_photo tbl p1 d1 e1 g1) p2 d2 e2 g2).filter
        (fun x => x.uuid = p2.uuid)) = [rowOf p2 d2 e2 g2]
  ∧ ((index_photo (index_photo tbl p1 d1 e1 g1) p2 d2 e2 g2).filter
        (fun x => x.uuid = p2.uuid)).length = 1
  ∧ ((index_photo (index_photo tbl p1 d1 e1 g1) p2 d2 e2 g2).filter
        (fun x => x.uuid ≠ p2.uuid)) = tbl.filter (fun x => x.uuid ≠ p2.uuid) := by
  have huuid1 : (rowOf p1 d1 e1 g1).uuid = p1.uuid := rfl
  have huuid2 : (rowOf p2 d2 e2 g2).uuid = p2.uuid := rfl
  unfold index_photo upsertRow
  have h1 : ((List.filter (fun x => x.uuid ≠ (rowOf p2 d2 e2 g2).uuid)
        (List.filter (fun x => x.uuid ≠ (rowOf p1 d1 e1 g1).uuid) tbl ++
          [rowOf p1 d1 e1 g1]) ++ [rowOf p2 d2 e2 g2]).filter
      (fun x => x.uuid = p2.uuid)) = [rowOf p2 d2 e2 g2] := by
    rw [List.filter_append]
    have hA : List.filter (fun x => decide (x.uuid = p2.uuid))
        (List.filter (fun x => x.uuid ≠ (rowOf p2 d2 e2 g2).uuid)
          (List.filter (fun x => x.uuid ≠ (rowOf p1 d1 e1 g1).uuid) tbl ++
            [rowOf p1 d1 e1 g1])) = [] := by
      rw [List.filter_eq_nil_iff]
      intro a ha
      have h2 := (List.mem_filter.1 ha).2
      simp only [huuid2] at h2
      simp only [ne_eq, decide_not, Bool.not_eq_eq_eq_not, Bool.not_true,
        decide_eq_false_iff_not] at h2
      simp [h2]
    rw [hA]
    simp [huuid2]
  have h2 : ((List.filter (fun x => x.uuid ≠ (rowOf p2 d2 e2 g2).uuid)
        (List.filter (fun x => x.uuid ≠ (rowOf p1 d1 e1 g1).uuid) tbl ++
          [rowOf p1 d1 e1 g1]) ++ [rowOf p2 d2 e2 g2]).filter
      (fun x => x.uuid = p2.uuid)).length = 1 := by
    rw [h1]
    rfl
  refine ⟨h1, h2, ?_⟩
  rw [List.filter_append, List.filter_append]
  simp only [List.filter_filter]
  rw [List.filter_cons, List.filter_cons]
  simp only [huuid1, huuid2, huuid]
  simp [List.filter_filter]

/-- Two concrete osxphotos photo objects sharing a uuid, used in
instances. -/
def pInfoA : PhotoInfo :=
  { uuid := "u1", originalFilename := "a.jpg", date := none, placeName := none,
    albums := [], keywords := [], favorite := false, width := none, height := none,
    iscloudasset := false, hasadjustments := false }

def pInfoB : PhotoInfo :=
  { uuid := "u1", originalFilename := "b.jpg", date := none, placeName := none,
    albums := [], keywords := [], favorite := true, width := none, height := none,
    iscloudasset := false, hasadjustments := false }

theorem index_photo_C9_witness :
    pInfoA.uuid = pInfoB.uuid ∧
    ((index_photo (index_photo [] pInfoA "first" [1] none) pInfoB "second" [2] none).filter
      (fun x => x.uuid = pInfoB.uuid)) = [rowOf pInfoB "second" [2] none] :=
  ⟨rfl, (index_photo_C9 [] pInfoA pInfoB "first" "second" [1] [2] none none rfl).1⟩

/-! ## The face store -/

/-- One record of the ChromaDB `faces` collection: id, embedding and the
metadata dict written by `process_photo_for_faces` (`index_faces.py`
164-182). -/
structure FaceRecord where
  id : String
  photoUuid : String
  faceIndex : ℕ
  bboxX : ℤ
  bboxY : ℤ
  bboxW : ℤ
  bboxH : ℤ
  confidence : ℚ
  age : Option ℤ
  gender : String
  embedding : List ℚ
  cluster_id : ℤ
  person_name : Option String
deriving DecidableEq

/-- The record created for a freshly detected face (`index_faces.py`
164-182): `cluster_id` is `-1` ("not clustered yet") and `person_name` is
`None` ("user-assigned label"). -/
def mkFaceRecord (photoUuid : String) (i : ℕ) (emb : List ℚ)
    (bx bdy bw bh : ℤ) (conf : ℚ) (age : Option ℤ) (gender : String) : FaceRecord :=
  { id := photoUuid ++ "_face_" ++ toString i
    photoUuid := photoUuid
    faceIndex := i
    bboxX := bx
    bboxY := bdy
    bboxW := bw
    bboxH := bh
    confidence := conf
    age := age
    gender := gender
    embedding := emb
    cluster_id := -1
    person_name := none }

/-- The `/api/label` loop of `FaceBrowserHandler.do_POST`
(`browse_faces_web.py` 366-395): walk all face records; on each record whose
current `cluster_id` equals the requested id, set `person_name` to the
label and count it; leave every other record untouched.  Returns
(updated count, new store). -/
def labelClusterGo (c : ℤ) (name : String) : List FaceRecord → ℕ × List FaceRecord
  | [] => (0, [])
  | r :: rs =>
    let rest := labelClusterGo c name rs
    if r.cluster_id = c then
      (rest.1 + 1, { r with person_name := some name } :: rest.2)
    else
      (rest.1, r :: rest.2)

/-- The operation `label_cluster(cluster_id, label)` as served by the face browser. -/
def label_cluster (st : List FaceRecord) (c : ℤ) (name : String) :
    ℕ × List FaceRecord :=
  labelClusterGo c name st

theorem labelClusterGo_snd (c : ℤ) (name : String) :
    ∀ st : List FaceRecord, (labelClusterGo c name st).2 =
      st.map (fun r => if r.cluster_id = c then { r with person_name := some name } else r) := by
  intro st
  induction st with
  | nil => rfl
  | cons r rs ih =>
      rw [labelClusterGo]
      by_cases h : r.cluster_id = c
      · simp [h, ih]
      · simp [h, ih]

theorem labelClusterGo_fst (c : ℤ) (name : String) :
    ∀ st : List FaceRecord, (labelClusterGo c name st).1 =
      (st.filter (fun r => r.cluster_id = c)).length := by
  intro st
  induction st with
  | nil => rfl
  | cons r rs ih =>
      rw [labelClusterGo, List.filter_cons]
      by_cases h : r.cluster_id = c
      · simp [h, ih]
      · simp [h, ih]

/-! ## Claim theorems for labeling -/

/-- C3.  `label_cluster(c, name)` sets `person_name = name` on exactly the
records whose current `cluster_id` equals `c`, leaves every other record
unchanged, and returns the exact count of updated records; when no current
member has `cluster_id = c` the count is `0` and the store is unchanged —
a valid, non-error result. -/
theorem label_cluster_C3 (st : List FaceRecord) (c : ℤ) (name : String) :
    (label_cluster st c name).1 = (st.filter (fun r => r.cluster_id = c)).length
  ∧ (label_cluster st c name).2.length = st.length
  ∧ (∀ i (h1 : i < st.length) (h2 : i < (label_cluster st c name).2.length),
      (label_cluster st c name).2.get ⟨i, h2⟩ =
        if (st.get ⟨i, h1⟩).cluster_id = c then
          { st.get ⟨i, h1⟩ with person_name := some name }
        else st.get ⟨i, h1⟩)
  ∧ ((∀ r ∈ st, r.cluster_id ≠ c) →
      (label_cluster st c name).1 = 0 ∧ (label_cluster st c name).2 = st) := by
  have hsnd := labelClusterGo_snd c name st
  have hfst := labelClusterGo_fst c name st
  refine ⟨hfst, ?_, ?_, ?_⟩
  · show (labelClusterGo c name st).2.length = st.length
    rw [hsnd, List.length_map]
  · intro i h1 h2
    show (labelClusterGo c name st).2.get ⟨i, h2⟩ = _
    simp only [hsnd, List.get_eq_getElem, List.getElem_map]
  · intro hnone
    constructor
    · show (labelClusterGo c name st).1 = 0
      rw [hfst, List.length_eq_zero, List.filter_eq_nil_iff]
      intro r hr
      simp [hnone r hr]
    · show (labelClusterGo c name st).2 = st
      rw [hsnd]
      conv_rhs => rw [← List.map_id st]
      refine List.map_congr_left ?_
      intro r hr
      simp [hnone r hr]

/-- A concrete face store: one face in cluster 7, one in cluster 3, one
unclustered noise face. -/
def faceStoreEx : List FaceRecord :=
  [{ mkFaceRecord "p1" 0 [1] 0 0 10 10 1 none "F" with cluster_id := 7 },
   { mkFaceRecord "p2" 0 [2] 0 0 10 10 1 none "M" with cluster_id := 3 },
   mkFaceRecord "p3" 0 [3] 0 0 10 10 1 none "F"]

theorem label_cluster_C3_witness :
    (label_cluster faceStoreEx 7 "Alice").1 =
      (faceStoreEx.filter (fun r => r.cluster_id = 7)).length :=
  (label_cluster_C3 faceStoreEx 7 "Alice").1

/-- C6 counterexample.  Labeling the noise bucket is not rejected: on a
store whose only record is unclustered (`cluster_id = -1`),
`label_cluster(-1, "Alice")` reports one updated record and mutates the
store, instead of failing a precondition check and mutating nothing. -/
theorem label_cluster_C6_cex :
    (label_cluster [mkFaceRecord "p3" 0 [3] 0 0 10 10 1 none "F"] (-1) "Alice").1 = 1
  ∧ (label_cluster [mkFaceRecord "p3" 0 [3] 0 0 10 10 1 none "F"] (-1) "Alice").2 ≠
      [mkFaceRecord "p3" 0 [3] 0 0 10 10 1 none "F"]
  ∧ (label_cluster [mkFaceRecord "p3" 0 [3] 0 0 10 10 1 none "F"] (-1) "Alice").2 =
      [{ mkFaceRecord "p3" 0 [3] 0 0 10 10 1 none "F" with person_name := some "Alice" }] := by
  refine ⟨rfl, ?_, rfl⟩
  intro hcon
  have h0 : (label_cluster [mkFaceRecord "p3" 0 [3] 0 0 10 10 1 none "F"] (-1) "Alice").2 =
      [{ mkFaceRecord "p3" 0 [3] 0 0 10 10 1 none "F" with person_name := some "Alice" }] := rfl
  rw [h0] at hcon
  injection hcon with h2 _
  have h3 := congrArg FaceRecord.person_name h2
  simp [mkFaceRecord] at h3

/-- C6 amended.  The handler performs no validation: `label_cluster` with
`cluster_id = -1` (or an empty name) proceeds like any other call, setting
`person_name` on every record currently marked as noise and returning their
count. -/
theorem label_cluster_C6_amended (st : List FaceRecord) (name : String) :
    (label_cluster st (-1) name).1 =
      (st.filter (fun r => r.cluster_id = -1)).length
  ∧ (label_cluster st (-1) name).2 =
      st.map (fun r => if r.cluster_id = -1 then
        { r with person_name := some name } else r) :=
  ⟨labelClusterGo_fst (-1) name st, labelClusterGo_snd (-1) name st⟩

/-! ## Face clustering (`cluster_faces.py`) -/

/-- Outcome of a `cluster_faces` run: `emptyError` is the `sys.exit(1)` taken
when the faces collection holds no records; `noWork` is the early `return` of
incremental mode when no record has `cluster_id == -1`; `ran labels st` is a
completed DBSCAN pass with the produced labels and the updated store. -/
inductive ClusterOutcome where
  | emptyError : ClusterOutcome
  | noWork : ClusterOutcome
  | ran : List ℤ → List FaceRecord → ClusterOutcome
deriving DecidableEq

/-- The operation `cluster_faces(threshold, min_cluster_size, incremental)`
(`cluster_faces.py` 57-174).  `dbscan` stands for sklearn's
`DBSCAN(eps, min_samples, metric).fit_predict`, an external routine the
script calls with `eps = threshold`, `min_samples = min_cluster_size` and
`metric = "cosine"` on the embeddings of **all** faces; the update loop then
writes `cluster_id := label[i]` on every record (it copies each metadata
dict and only replaces `cluster_id`).  The model pairs records and labels
positionally with `zip`, exactly the code's indexed loop whenever `dbscan`
returns one label per input point (which sklearn guarantees). -/
def cluster_faces (dbscan : ℚ → ℕ → String → List (List ℚ) → List ℤ)
    (threshold : ℚ) (minClusterSize : ℕ) (incremental : Bool)
    (st : List FaceRecord) : ClusterOutcome :=
  if st = [] then ClusterOutcome.emptyError
  else if incremental ∧ ∀ r ∈ st, r.cluster_id ≠ -1 then ClusterOutcome.noWork
  else
    let labels := dbscan threshold minClusterSize "cosine" (st.map (fun r => r.embedding))
    ClusterOutcome.ran labels
      ((st.zip labels).map (fun rl => { rl.1 with cluster_id := rl.2 }))

/-- C2 counterexample.  The claim's second branch asserts that with
`incremental = false` every store — the empty one included — gets a DBSCAN
pass whose labels are persisted; the script instead exits with an error
(`sys.exit(1)`) before clustering when the faces collection is empty. -/
theorem cluster_faces_C2_cex :
    cluster_faces (fun _ _ _ _ => []) (3/5) 3 false [] = ClusterOutcome.emptyError
  ∧ ¬ ∃ (labels : List ℤ) (ns : List FaceRecord),
      cluster_faces (fun _ _ _ _ => []) (3/5) 3 false [] = ClusterOutcome.ran labels ns := by
  constructor
  · rfl
  · rintro ⟨labels, ns, h⟩
    rw [show cluster_faces (fun _ _ _ _ => []) (3/5) 3 false [] =
      ClusterOutcome.emptyError from rfl] at h
    exact nomatch h

/-- C2 amended.  On a **non-empty** store: incremental mode with zero
unclustered records returns immediately, without a DBSCAN run and without
touching any record; in every other case one DBSCAN pass runs with
`eps = threshold`, `min_samples = min_cluster_size` and cosine distance over
the embeddings of all face records, and its label for each point — `-1` or a
non-negative integer, positionally — is persisted as that record's
`cluster_id`, all other fields kept.  (An empty store instead aborts with an
error before either branch.) -/
theorem cluster_faces_C2_amended (dbscan : ℚ → ℕ → String → List (List ℚ) → List ℤ)
    (threshold : ℚ) (minClusterSize : ℕ) (incremental : Bool)
    (st : List FaceRecord) (hne : st ≠ [])
    (hlen : (dbscan threshold minClusterSize "cosine"
      (st.map (fun r => r.embedding))).length = st.length) :
    ((incremental = true ∧ ∀ r ∈ st, r.cluster_id ≠ -1) →
      cluster_faces dbscan threshold minClusterSize incremental st = ClusterOutcome.noWork)
  ∧ (¬ (incremental = true ∧ ∀ r ∈ st, r.cluster_id ≠ -1) →
      ∃ ns : List FaceRecord,
        cluster_faces dbscan threshold minClusterSize incremental st =
          ClusterOutcome.ran
            (dbscan threshold minClusterSize "cosine" (st.map (fun r => r.embedding))) ns
      ∧ ns.length = st.length
      ∧ (∀ i (h1 : i < st.length) (h2 : i < ns.length)
           (h3 : i < (dbscan threshold minClusterSize "cosine"
             (st.map (fun r => r.embedding))).length),
           ns.get ⟨i, h2⟩ = { st.get ⟨i, h1⟩ with
             cluster_id := (dbscan threshold minClusterSize "cosine"
               (st.map (fun r => r.embedding))).get ⟨i, h3⟩ })
      ∧ ((∀ l ∈ dbscan threshold minClusterSize "cosine"
            (st.map (fun r => r.embedding)), l = -1 ∨ 0 ≤ l) →
          ∀ r ∈ ns, r.cluster_id = -1 ∨ 0 ≤ r.cluster_id)) := by
  constructor
  · intro hinc
    unfold cluster_faces
    rw [if_neg hne, if_pos]
    exact ⟨hinc.1, hinc.2⟩
  · intro hother
    refine ⟨(st.zip (dbscan threshold minClusterSize "cosine"
        (st.map (fun r => r.embedding)))).map (fun rl => { rl.1 with cluster_id := rl.2 }),
      ?_, ?_, ?_, ?_⟩
    · unfold cluster_faces
      rw [if_neg hne, if_neg]
      intro hcon
      exact hother ⟨by simp [hcon.1], hcon.2⟩
    · rw [List.length_map, List.length_zip, hlen, min_self]
    · intro i h1 h2 h3
      simp only [List.get_eq_getElem, List.getElem_map, List.getElem_zip]
    · intro hlab r hr
      obtain ⟨rl, hrl, hrl2⟩ := List.mem_map.1 hr
      have hmem2 : rl.2 ∈ dbscan threshold minClusterSize "cosine"
          (st.map (fun r => r.embedding)) := (List.of_mem_zip hrl).2
      have := hlab rl.2 hmem2
      rw [← hrl2]
      simpa using this

/-- The concrete DBSCAN stand-in used in witnesses: every point labeled 0. -/
def dbscanEx : ℚ → ℕ → String → List (List ℚ) → List ℤ :=
  fun _ _ _ pts => pts.map (fun _ => 0)

theorem cluster_faces_C2_witness :
    faceStoreEx ≠ []
  ∧ (dbscanEx (3/5) 3 "cosine" (faceStoreEx.map (fun r => r.embedding))).length =
      faceStoreEx.length
  ∧ (¬ (true = true ∧ ∀ r ∈ faceStoreEx, r.cluster_id ≠ -1) →
      ∃ ns : List FaceRecord,
        cluster_faces dbscanEx (3/5) 3 true faceStoreEx =
          ClusterOutcome.ran
            (dbscanEx (3/5) 3 "cosine" (faceStoreEx.map (fun r => r.embedding))) ns
      ∧ ns.length = faceStoreEx.length
      ∧ (∀ i (h1 : i < faceStoreEx.length) (h2 : i < ns.length)
           (h3 : i < (dbscanEx (3/5) 3 "cosine"
             (faceStoreEx.map (fun r => r.embedding))).length),
           ns.get ⟨i, h2⟩ = { faceStoreEx.get ⟨i, h1⟩ with
             cluster_id := (dbscanEx (3/5) 3 "cosine"
               (faceStoreEx.map (fun r => r.embedding))).get ⟨i, h3⟩ })
      ∧ ((∀ l ∈ dbscanEx (3/5) 3 "cosine"
            (faceStoreEx.map (fun r => r.embedding)), l = -1 ∨ 0 ≤ l) →
          ∀ r ∈ ns, r.cluster_id = -1 ∨ 0 ≤ r.cluster_id)) :=
  ⟨by simp [faceStoreEx], rfl,
    (cluster_faces_C2_amended dbscanEx (3/5) 3 true faceStoreEx
      (by simp [faceStoreEx]) rfl).2⟩

/-! ## Reachable face-store states (C7) -/

/-- ChromaDB `upsert` over the faces collection: records whose id collides
with an incoming face are replaced, fresh ids are added. -/
def upsertFaces (st fs : List FaceRecord) : List FaceRecord :=
  st.filter (fun r => fs.all (fun f => f.id ≠ r.id)) ++ fs

/-- Face-store states reachable by the repository's operations: starting
empty, any interleaving of face indexing (`process_photo_for_faces`, which
only ever upserts freshly built `mkFaceRecord`s), completed clustering
passes, and labeling requests. -/
inductive Reachable : List FaceRecord → Prop where
  | init : Reachable []
  | addFaces (st fs : List FaceRecord)
      (h : ∀ f ∈ fs, ∃ pu i emb bx bdy bw bh conf age g,
        f = mkFaceRecord pu i emb bx bdy bw bh conf age g)
      (hst : Reachable st) : Reachable (upsertFaces st fs)
  | clusterRun (st : List FaceRecord) (d : ℚ → ℕ → String → List (List ℚ) → List ℤ)
      (t : ℚ) (m : ℕ) (inc : Bool) (labels : List ℤ) (ns : List FaceRecord)
      (hst : Reachable st)
      (h : cluster_faces d t m inc st = ClusterOutcome.ran labels ns) : Reachable ns
  | label (st : List FaceRecord) (c : ℤ) (name : String)
      (hst : Reachable st) : Reachable (label_cluster st c name).2

/-- The store after indexing one face and then labeling the noise bucket. -/
def badStore : List FaceRecord :=
  (label_cluster (upsertFaces [] [mkFaceRecord "p1" 0 [1] 0 0 10 10 1 none "F"])
    (-1) "Alice").2

/-- C7 counterexample.  A state violating the invariant is reachable: index
one face (created with `cluster_id = -1`, `person_name = None`), then label
cluster `-1` — the unvalidated handler accepts it — leaving a record with
`cluster_id = -1` and `person_name = "Alice"`. -/
theorem faces_invariant_C7_cex :
    Reachable badStore
  ∧ badStore = [{ mkFaceRecord "p1" 0 [1] 0 0 10 10 1 none "F" with
      person_name := some "Alice" }]
  ∧ ({ mkFaceRecord "p1" 0 [1] 0 0 10 10 1 none "F" with
      person_name := some "Alice" } : FaceRecord).cluster_id = -1
  ∧ ({ mkFaceRecord "p1" 0 [1] 0 0 10 10 1 none "F" with
      person_name := some "Alice" } : FaceRecord).person_name ≠ none := by
  refine ⟨?_, rfl, rfl, fun h => nomatch h⟩
  exact Reachable.label _ (-1) "Alice"
    (Reachable.addFaces [] [mkFaceRecord "p1" 0 [1] 0 0 10 10 1 none "F"]
      (by
        intro f hf
        rw [List.mem_singleton] at hf
        exact ⟨"p1", 0, [1], 0, 0, 10, 10, 1, none, "F", hf⟩)
      Reachable.init)

/-- Face-store states reachable without any labeling request: face indexing
and clustering passes only. -/
inductive ReachableNL : List FaceRecord → Prop where
  | init : ReachableNL []
  | addFaces (st fs : List FaceRecord)
      (h : ∀ f ∈ fs, ∃ pu i emb bx bdy bw bh conf age g,
        f = mkFaceRecord pu i emb bx bdy bw bh conf age g)
      (hst : ReachableNL st) : ReachableNL (upsertFaces st fs)
  | clusterRun (st : List FaceRecord) (d : ℚ → ℕ → String → List (List ℚ) → List ℤ)
      (t : ℚ) (m : ℕ) (inc : Bool) (labels : List ℤ) (ns : List FaceRecord)
      (hst : ReachableNL st)
      (h : cluster_faces d t m inc st = ClusterOutcome.ran labels ns) : ReachableNL ns

/-- C7 amended.  The invariant cannot be violated without labeling: in any
state reachable by face indexing and clustering alone, every record still has
`person_name = None`, so no record pairs `cluster_id = -1` with a non-null
`person_name`.  With labeling the invariant does not hold in every reachable
state (see the counterexample, which labels the noise bucket; re-clustering a
labeled face into noise violates it as well). -/
theorem faces_invariant_C7_amended (st : List FaceRecord) (h : ReachableNL st) :
    ∀ r ∈ st, r.person_name = none ∧ ¬ (r.cluster_id = -1 ∧ r.person_name ≠ none) := by
  induction h with
  | init => intro r hr; exact absurd hr (List.not_mem_nil r)
  | addFaces st fs hmk hst ih =>
      intro r hr
      rcases List.mem_append.1 hr with hl | hrf
      · exact ih r (List.mem_filter.1 hl).1
      · obtain ⟨pu, i, emb, bx, bdy, bw, bh, conf, age, g, rfl⟩ := hmk r hrf
        exact ⟨rfl, fun hcon => hcon.2 rfl⟩
  | clusterRun st d t m inc labels ns hst h ih =>
      intro r hr
      unfold cluster_faces at h
      by_cases h1 : st = []
      · rw [if_pos h1] at h
        exact nomatch h
      · rw [if_neg h1] at h
        by_cases h2 : inc = true ∧ ∀ r ∈ st, r.cluster_id ≠ -1
        · rw [if_pos h2] at h
          exact nomatch h
        · rw [if_neg h2] at h
          injection h with _ hns
          rw [← hns] at hr
          obtain ⟨rl, hrl, hrl2⟩ := List.mem_map.1 hr
          have hmem : rl.1 ∈ st := (List.of_mem_zip hrl).1
          have hpn : r.person_name = rl.1.person_name := by
            rw [← hrl2]
          exact ⟨hpn.trans (ih rl.1 hmem).1,
            fun hcon => hcon.2 (hpn.trans (ih rl.1 hmem).1)⟩

/-- The store after indexing one face, with no labeling. -/
def nlStore : List FaceRecord :=
  upsertFaces [] [mkFaceRecord "p1" 0 [1] 0 0 10 10 1 none "F"]

theorem faces_invariant_C7_witness :
    ReachableNL nlStore ∧
      ∀ r ∈ nlStore, r.person_name = none ∧
        ¬ (r.cluster_id = -1 ∧ r.person_name ≠ none) := by
  have hr : ReachableNL nlStore :=
    ReachableNL.addFaces [] [mkFaceRecord "p1" 0 [1] 0 0 10 10 1 none "F"]
      (by
        intro f hf
        rw [List.mem_singleton] at hf
        exact ⟨"p1", 0, [1], 0, 0, 10, 10, 1, none, "F", hf⟩)
      ReachableNL.init
  exact ⟨hr, faces_invariant_C7_amended nlStore hr⟩
